import Mathlib

/-!
Blackjack (`src/blackjack.cpp`): a shallow embedding and its verified properties

The C++ program is a single translation unit.  Its classes become Lean
structures, member functions become functions in the namespace of their class,
and `main` becomes a function of everything it reads from outside: the order
of the deck after the shuffle and the stream of values returned by
`Console::Prompt`.

Conventions of the embedding:

* `int` is `Int`.  Every integer of the program is a sum of card values, each
  in `[1, 10]`, so it stays far below `2^31` for any hand that fits in memory;
  signed overflow (undefined in C++) is outside the model.
* `stack<Card>` is a `List Card` whose head is the top of the stack.
* `vector<Card>` is a `List Card` in index order (`push_back` appends).
* `deck.Deal()` on an empty stack is undefined behaviour in the source; the
  model returns `none` and `main` stops with status `DeckExhausted`.
-/

namespace Blackjack

/-- The constant `BLACKJACK` (line 16). -/
def BLACKJACK : Int := 21

/-- The enumeration `Rank` (lines 22-37). -/
inductive Rank where
  | Ace | Two | Three | Four | Five | Six | Seven | Eight | Nine | Ten
  | Jack | Queen | King
  deriving DecidableEq, Repr

/-- The enumeration `Suit` (lines 39-45). -/
inductive Suit where
  | Hearts | Diamonds | Spades | Clubs
  deriving DecidableEq, Repr

/-- The underlying integer of a rank, `static_cast<int>(rank)`: `Ace = 1` and
each following enumerator is one more. -/
def Rank.toInt : Rank → Int
  | .Ace => 1 | .Two => 2 | .Three => 3 | .Four => 4 | .Five => 5
  | .Six => 6 | .Seven => 7 | .Eight => 8 | .Nine => 9 | .Ten => 10
  | .Jack => 11 | .Queen => 12 | .King => 13

/-- The underlying integer of a suit (lines 41-44). -/
def Suit.toInt : Suit → Int
  | .Hearts => 1 | .Diamonds => 2 | .Spades => 3 | .Clubs => 4

/-- The conversion `Rank(rank)` of line 83.  The constructor of `Deck` only
converts 1..13, each of which names an enumerator; any other integer has no
enumerator and is sent to `King` here (`rank_toInt_fromNat` shows that the
values the program converts are handled exactly). -/
def Rank.fromNat : Nat → Rank
  | 1 => .Ace | 2 => .Two | 3 => .Three | 4 => .Four | 5 => .Five
  | 6 => .Six | 7 => .Seven | 8 => .Eight | 9 => .Nine | 10 => .Ten
  | 11 => .Jack | 12 => .Queen | _ => .King

/-- The conversion `Suit(suit)` of line 83, for 1..4 (see `Rank.fromNat`). -/
def Suit.fromNat : Nat → Suit
  | 1 => .Hearts | 2 => .Diamonds | 3 => .Spades | _ => .Clubs

/-- `Card::RankToValue` (lines 56-59). -/
def Card.RankToValue (rank : Rank) : Int :=
  if rank.toInt > 10 then 10 else rank.toInt

/-- The class `Card` (lines 48-70).  The three data members are private and
the only constructor is `Card(Suit, Rank)`, which sets `_value` to
`RankToValue(_rank)`; the field `computed` records that fact, so the type
holds exactly the objects the program can build. -/
structure Card where
  _suit : Suit
  _rank : Rank
  _value : Int
  computed : _value = Card.RankToValue _rank
  deriving DecidableEq

namespace Card

/-- The constructor `Card(Suit suit, Rank rank)` (lines 62-65). -/
def new (suit : Suit) (rank : Rank) : Card :=
  { _suit := suit, _rank := rank, _value := RankToValue rank, computed := rfl }

/-- The accessor `suit()` (line 67). -/
def suit (c : Card) : Suit := c._suit

/-- The accessor `rank()` (line 68). -/
def rank (c : Card) : Rank := c._rank

/-- The accessor `value()` (line 69). -/
def value (c : Card) : Int := c._value

end Card

/-- The class `Player` (lines 115-145): a hand of cards in the order received. -/
structure Player where
  _hand : List Card
  deriving DecidableEq

namespace Player

/-- The constructor `Player()` (line 121): an empty hand. -/
def new : Player := { _hand := [] }

/-- `Player::AddCard` (lines 123-126): `push_back`. -/
def AddCard (p : Player) (c : Card) : Player := { _hand := p._hand ++ [c] }

/-- One pass of the loop body of `Player::Total` (lines 134-136) on the pair
`(hasAce, answer)`. -/
def TotalStep (acc : Bool × Int) (c : Card) : Bool × Int :=
  (if c.rank = Rank.Ace then true else acc.1, acc.2 + c.value)

/-- `Player::Total` (lines 128-142): the loop over the hand starting from
`hasAce = false`, `answer = 0`, then the conditional promotion of one Ace. -/
def Total (p : Player) : Int :=
  let acc := p._hand.foldl TotalStep (false, 0)
  if acc.1 && decide (acc.2 ≤ 11) then acc.2 + 10 else acc.2

/-- The accessor `hand()` (line 144). -/
def hand (p : Player) : List Card := p._hand

end Player

/-- The class `Deck` (lines 73-113): the stack `_deck`, top of the stack first. -/
structure Deck where
  _deck : List Card
  deriving DecidableEq

namespace Deck

/-- The call `_deck.emplace(card)` / `_deck.push(card)`: the card becomes the top. -/
def push (d : Deck) (c : Card) : Deck := { _deck := c :: d._deck }

/-- The constructor `Deck()` (lines 79-84): for `suit` from 1 to 4 and, inside,
`rank` from 1 to 13, the card `Card{Suit(suit), Rank(rank)}` is pushed on the
stack, which starts empty. -/
def new : Deck :=
  (List.range' 1 4).foldl
    (fun d suit =>
      (List.range' 1 13).foldl
        (fun d rank => d.push (Card.new (Suit.fromNat suit) (Rank.fromNat rank))) d)
    { _deck := [] }

/-- `Deck::Size` (line 111). -/
def Size (d : Deck) : Int := d._deck.length

/-- `Deck::Deal` (lines 104-109): returns the top card and the deck without
it.  On an empty stack `top()` is undefined in the source; the model returns
`none`. -/
def Deal (d : Deck) : Option (Card × Deck) :=
  match d._deck with
  | [] => none
  | top :: below => some (top, { _deck := below })

/-- The first loop of `Deck::Shuffle` (lines 90-94): `size` times, the top of
the stack is appended to the vector `cards` and popped. -/
def popAll : Nat → List Card → Deck → List Card × Deck
  | 0, cards, d => (cards, d)
  | i + 1, cards, d =>
    match d._deck with
    | [] => (cards, d)
    | top :: below => popAll i (cards ++ [top]) { _deck := below }

/-- The second loop of `Deck::Shuffle` (lines 100-101): `cards[i]` is pushed
for `i` from 0 to `size - 1`.  A vector shorter than `size` (which
`std::shuffle` never produces) stops the loop. -/
def pushAll : Nat → List Card → Deck → Deck
  | 0, _, d => d
  | _ + 1, [], d => d
  | i + 1, c :: cards, d => pushAll i cards (d.push c)

/-- `Deck::Shuffle` (lines 86-102).  `std::shuffle` with a generator seeded
from `random_device` is the parameter `stdShuffle`: the rearrangement it
performs on the vector. -/
def Shuffle (stdShuffle : List Card → List Card) (d : Deck) : Deck :=
  let size := d._deck.length
  let popped := popAll size [] d
  let cards := stdShuffle popped.1
  pushAll size cards popped.2

end Deck

/-- The enumeration `PlayerAction` (lines 147-152). -/
inductive PlayerAction where
  | None | Hit | Stand
  deriving DecidableEq, Repr

/-- The `switch` of `Console::Prompt` (lines 161-166) on the character read. -/
def Console.Prompt (c : Char) : PlayerAction :=
  if c = 'H' then PlayerAction.Hit
  else if c = 'S' then PlayerAction.Stand
  else PlayerAction.None

/-- The local objects of `main`: `deck`, `player` and `dealer`. -/
structure Game where
  deck : Deck
  player : Player
  dealer : Player
  deriving DecidableEq

/-- How a run of `main` stops.  The first four are the messages it prints
before `return 0`: "Blackjack! You win!" (line 242), "You've gone and busted
my good man." (line 271), "You win!" (line 286) and "You lose!" (line 288).
`AwaitingInput`: the input ended while the prompt loop of line 257 was waiting
for a recognised key.  `DeckExhausted`: `Deal` was called on an empty deck. -/
inductive Status where
  | PlayerBlackjack | PlayerBust | PlayerWins | DealerWins
  | AwaitingInput | DeckExhausted
  deriving DecidableEq, Repr

/-- The end of a run: how it stopped, the objects of `main` at that moment,
and the values of `Console::Prompt` that were never read. -/
structure Final where
  status : Status
  game : Game
  unread : List PlayerAction
  deriving DecidableEq

/-- The statement `player.AddCard(deck.Deal())` (lines 232, 233, 263). -/
def Game.dealPlayer (g : Game) : Option Game :=
  match g.deck.Deal with
  | none => none
  | some (c, deck) => some { g with deck := deck, player := g.player.AddCard c }

/-- The statement `dealer.AddCard(deck.Deal())` (lines 236, 237, 281). -/
def Game.dealDealer (g : Game) : Option Game :=
  match g.deck.Deal with
  | none => none
  | some (c, deck) => some { g with deck := deck, dealer := g.dealer.AddCard c }

/-- The `switch` of lines 260-265 on the player's choice: the game after it
and the new value of `stand` (which is `false` whenever the switch is
entered); `none` when `Hit` deals from an empty deck. -/
def execute (choice : PlayerAction) (g : Game) : Option (Game × Bool) :=
  match choice with
  | .None => some (g, false)
  | .Hit => match g.dealPlayer with
    | none => none
    | some g1 => some (g1, false)
  | .Stand => some (g, true)

/-- How the player's loop is left: by `stand` becoming true, or by `main`
stopping inside the loop. -/
inductive LoopExit where
  | stood (g : Game) (unread : List PlayerAction)
  | ended (f : Final)
  deriving DecidableEq

/-- The loop `while (!stand)` of lines 250-274, run on the values that the
successive calls of `Console::Prompt` return.  Each element of the list is one
call: a `None` makes the inner `do ... while (choice == None)` of line 257 call
again; any other value leaves the inner loop, goes through the `switch`
(`execute`) and the bust check of line 268, and the outer loop repeats unless
`stand` was set. -/
def playerLoop (g : Game) : List PlayerAction → LoopExit
  | [] => .ended { status := .AwaitingInput, game := g, unread := [] }
  | choice :: rest =>
    if choice = PlayerAction.None then playerLoop g rest
    else
      match execute choice g with
      | none => .ended { status := .DeckExhausted, game := g, unread := rest }
      | some (g1, stand) =>
        if g1.player.Total > BLACKJACK then
          .ended { status := .PlayerBust, game := g1, unread := rest }
        else if stand then .stood g1 rest
        else playerLoop g1 rest

/-- The loop `while (dealer.Total() < 17) dealer.AddCard(deck.Deal());` of
lines 280-281 on the dealer's hand and the cards of the deck (top first): the
final hand and the cards left, or `none` when a card is asked of an empty deck.
`dealerLoop_eq` states it with `Deck.Deal`. -/
def dealerLoop (dealer : Player) : List Card → Option (Player × Deck)
  | [] => if dealer.Total < 17 then none else some (dealer, { _deck := [] })
  | top :: below =>
    if dealer.Total < 17 then dealerLoop (dealer.AddCard top) below
    else some (dealer, { _deck := top :: below })

/-- The comparison of lines 285-288. -/
def finalComparison (dealer player : Player) : Status :=
  if dealer.Total > BLACKJACK || dealer.Total < player.Total then .PlayerWins
  else .DealerWins

/-- Lines 276-290 of `main`: the dealer's turn and the final comparison. -/
def dealerTurn (g : Game) (unread : List PlayerAction) : Final :=
  match dealerLoop g.dealer g.deck._deck with
  | none => { status := .DeckExhausted, game := g, unread := unread }
  | some (dealer, deck) =>
    { status := finalComparison dealer g.player,
      game := { g with deck := deck, dealer := dealer },
      unread := unread }

/-- Lines 230-237 of `main`: two cards to the player, then two to the dealer. -/
def dealCards (deck : Deck) : Option Game :=
  match ({ deck := deck, player := Player.new, dealer := Player.new } : Game).dealPlayer with
  | none => none
  | some g1 =>
    match g1.dealPlayer with
    | none => none
    | some g2 =>
      match g2.dealDealer with
      | none => none
      | some g3 => g3.dealDealer

/-- What follows the player's loop: nothing when `main` stopped inside it,
the dealer's turn (lines 276-290) when the player stood. -/
def afterLoop : LoopExit → Final
  | .ended f => f
  | .stood g unread => dealerTurn g unread

/-- Lines 230-290 of `main`: a round played on the shuffled deck `deck` with
the values `choices` returned by the successive calls of `Console::Prompt`.
A deck too short for the four cards of lines 232-237 is reported as
`DeckExhausted` with the deck as it was given. -/
def round (deck : Deck) (choices : List PlayerAction) : Final :=
  match dealCards deck with
  | none =>
    { status := .DeckExhausted,
      game := { deck := deck, player := Player.new, dealer := Player.new },
      unread := choices }
  | some g =>
    if g.player.Total = BLACKJACK then
      { status := .PlayerBlackjack, game := g, unread := choices }
    else afterLoop (playerLoop g choices)

/-- The function `main` (lines 224-291): a fresh deck is shuffled and a round
is played on it; `input` is the sequence of characters that `cin` delivers,
one to each call of `Console::Prompt`. -/
def main (stdShuffle : List Card → List Card) (input : List Char) : Final :=
  round (Deck.new.Shuffle stdShuffle) (input.map Console.Prompt)

/-! ## Reference notions taken from the specification -/

/-- The hard sum of a hand: the sum of the cards' values, every Ace counted as 1. -/
def hardSum (hand : List Card) : Int := (hand.map Card.value).sum

/-- The reference score of the specification: the hard sum when the hand holds
no Ace, the hard sum plus 10 when it holds an Ace and the hard sum is at most
11, the hard sum when it holds an Ace and the hard sum is above 11. -/
def referenceScore (hand : List Card) : Int :=
  if ∃ c ∈ hand, c.rank = Rank.Ace then
    if hardSum hand ≤ 11 then hardSum hand + 10 else hardSum hand
  else hardSum hand

/-- Every way of counting a hand: each Ace counts 1 or 11, every other card
its value.  A way is recorded as the number of Aces counted 11 and the sum. -/
def aceCountings : List Card → List (Nat × Int)
  | [] => [(0, 0)]
  | c :: rest =>
    if c.rank = Rank.Ace then
      (aceCountings rest).map (fun ks => (ks.1, ks.2 + 1))
        ++ (aceCountings rest).map (fun ks => (ks.1 + 1, ks.2 + 11))
    else (aceCountings rest).map (fun ks => (ks.1, ks.2 + c.value))

/-- The number of Aces in a hand. -/
def aceCount (hand : List Card) : Nat :=
  (hand.filter (fun c => decide (c.rank = Rank.Ace))).length

/-- The sums that the ways of counting a hand give. -/
def possibleSums (hand : List Card) : List Int := (aceCountings hand).map Prod.snd

/-- A soft hand: it holds an Ace and its hard sum is at most 11, so that
`Player::Total` counts one Ace as 11. -/
def isSoft (hand : List Card) : Prop :=
  (∃ c ∈ hand, c.rank = Rank.Ace) ∧ hardSum hand ≤ 11

/-- The (suit, rank) pairs of the cards of a deck, top first. -/
def Deck.pairs (d : Deck) : List (Suit × Rank) := d._deck.map (fun c => (c.suit, c.rank))

/-- A stream of decisions with every `None` (unrecognised input) removed. -/
def removeNone (choices : List PlayerAction) : List PlayerAction :=
  choices.filter (fun a => decide (a ≠ PlayerAction.None))

/-- The end of a run with the `None`s removed from the values never read. -/
def Final.withoutNone (f : Final) : Final := { f with unread := removeNone f.unread }

/-- The exit of the player's loop with the `None`s removed from the values
never read. -/
def LoopExit.withoutNone : LoopExit → LoopExit
  | .stood g unread => .stood g (removeNone unread)
  | .ended f => .ended f.withoutNone

/-- The two statements of `main` that change `deck`, `player` or `dealer`
after the shuffle: `player.AddCard(deck.Deal())` (lines 232, 233, 263) and
`dealer.AddCard(deck.Deal())` (lines 236, 237, 281). -/
inductive Move where
  | toPlayer | toDealer
  deriving DecidableEq, Repr

/-- One such statement run on a state of `main`. -/
def Move.run (m : Move) (g : Game) : Option Game :=
  match m with
  | .toPlayer => g.dealPlayer
  | .toDealer => g.dealDealer

/-- A sequence of such statements run in order; `none` when one of them deals
from an empty deck.  The states of a round are those that the initial deal,
the Hits and the dealer's draws reach in this way from the shuffled deck and
two empty hands. -/
def runMoves (g : Game) : List Move → Option Game
  | [] => some g
  | m :: rest =>
    match m.run g with
    | none => none
    | some g1 => runMoves g1 rest

/-- All the cards of a state: those of the deck, of the player's hand and of
the dealer's hand. -/
def Game.cards (g : Game) : List Card := g.deck._deck ++ g.player._hand ++ g.dealer._hand

/-! ## Concrete decks (top card first) used as test inputs -/

/-- Scenario C of the specification: the player is dealt Ten and Eight, the
dealer Ten and Six, and the next card is a King. -/
def scenarioC : Deck :=
  { _deck := [Card.new .Hearts .Ten, Card.new .Hearts .Eight, Card.new .Spades .Ten,
      Card.new .Spades .Six, Card.new .Clubs .King, Card.new .Clubs .Two] }

/-- Scenario A of the specification, with a dealer who also holds 21: the
player is dealt Ace and King, the dealer Ace and Queen. -/
def scenarioA : Deck :=
  { _deck := [Card.new .Hearts .Ace, Card.new .Hearts .King, Card.new .Spades .Ace,
      Card.new .Spades .Queen, Card.new .Clubs .Five, Card.new .Clubs .Two] }

/-- Scenario B of the specification: the player is dealt Ten and Nine and
the next card is a Five. -/
def scenarioB : Deck :=
  { _deck := [Card.new .Hearts .Ten, Card.new .Hearts .Nine, Card.new .Spades .Seven,
      Card.new .Spades .Queen, Card.new .Clubs .Five, Card.new .Clubs .Two] }

/-- A deck that deals the player Ace and Nine (a soft 20) and then a Five. -/
def softTwenty : Deck :=
  { _deck := [Card.new .Hearts .Ace, Card.new .Hearts .Nine, Card.new .Spades .Seven,
      Card.new .Spades .Queen, Card.new .Clubs .Five, Card.new .Clubs .Two] }

/-- The fresh deck turned over: the Ace of Hearts on top, then the Two,
Three, ... of Hearts, and the King of Clubs at the bottom. -/
def turnedDeck : Deck := { _deck := Deck.new._deck.reverse }

/-! ## Scoring -/

theorem Card.value_eq (c : Card) : c.value = Card.RankToValue c.rank := c.computed

theorem Card.value_bounds (c : Card) : 1 ≤ c.value ∧ c.value ≤ 10 := by
  rw [Card.value_eq]
  cases c.rank <;> decide

theorem Card.value_of_ace (c : Card) (h : c.rank = Rank.Ace) : c.value = 1 := by
  rw [Card.value_eq, h]
  rfl

theorem hardSum_nil : hardSum [] = 0 := rfl

theorem hardSum_cons (c : Card) (hand : List Card) :
    hardSum (c :: hand) = c.value + hardSum hand := by
  simp [hardSum]

theorem hardSum_append (xs ys : List Card) :
    hardSum (xs ++ ys) = hardSum xs + hardSum ys := by
  simp [hardSum]

theorem length_le_hardSum (hand : List Card) : (hand.length : Int) ≤ hardSum hand := by
  induction hand with
  | nil => simp [hardSum]
  | cons c rest ih =>
    have := (Card.value_bounds c).1
    rw [hardSum_cons]
    simp only [List.length_cons, Nat.cast_add, Nat.cast_one]
    omega

/-- The loop of `Player::Total` leaves in `hasAce` whether an Ace was met and
in `answer` the hard sum added to its initial value. -/
theorem foldl_TotalStep (hand : List Card) (b : Bool) (n : Int) :
    hand.foldl Player.TotalStep (b, n)
      = (b || decide (∃ c ∈ hand, c.rank = Rank.Ace), n + hardSum hand) := by
  induction hand generalizing b n with
  | nil => simp [hardSum]
  | cons c rest ih =>
    rw [List.foldl_cons, Player.TotalStep, ih, hardSum_cons]
    by_cases hc : c.rank = Rank.Ace
    · simp [hc, add_assoc]
    · simp [hc, add_assoc]

theorem Player.Total_eq (p : Player) :
    p.Total = if (∃ c ∈ p._hand, c.rank = Rank.Ace) ∧ hardSum p._hand ≤ 11
      then hardSum p._hand + 10 else hardSum p._hand := by
  unfold Player.Total
  simp only [foldl_TotalStep, Bool.false_or, zero_add, Bool.and_eq_true, decide_eq_true_eq]

/-- C1: for every hand, `Player::Total` equals the reference score: the hard
sum when the hand holds no Ace, the hard sum plus 10 when it holds an Ace and
the hard sum is at most 11, and the hard sum when it holds an Ace and the hard
sum is above 11. -/
theorem total_eq_referenceScore (p : Player) :
    p.Total = referenceScore p.hand
    ∧ ((¬ ∃ c ∈ p.hand, c.rank = Rank.Ace) → p.Total = hardSum p.hand)
    ∧ ((∃ c ∈ p.hand, c.rank = Rank.Ace) → hardSum p.hand ≤ 11 →
        p.Total = hardSum p.hand + 10)
    ∧ ((∃ c ∈ p.hand, c.rank = Rank.Ace) → hardSum p.hand > 11 →
        p.Total = hardSum p.hand) := by
  rw [Player.Total_eq]
  unfold referenceScore Player.hand
  refine ⟨?_, ?_, ?_, ?_⟩
  · by_cases h : ∃ c ∈ p._hand, c.rank = Rank.Ace <;> simp [h]
  · intro h; simp [h]
  · intro h h11; simp [h, h11]
  · intro h h11
    have : ¬ hardSum p._hand ≤ 11 := by omega
    simp [this]

theorem aceCount_cons_ace (c : Card) (rest : List Card) (h : c.rank = Rank.Ace) :
    aceCount (c :: rest) = aceCount rest + 1 := by
  simp [aceCount, h]

theorem aceCount_cons_other (c : Card) (rest : List Card) (h : ¬ c.rank = Rank.Ace) :
    aceCount (c :: rest) = aceCount rest := by
  simp [aceCount, h]

theorem aceCount_pos_iff (hand : List Card) :
    0 < aceCount hand ↔ ∃ c ∈ hand, c.rank = Rank.Ace := by
  simp [aceCount, List.length_pos_iff_exists_mem]

theorem aceCount_le_hardSum (hand : List Card) : (aceCount hand : Int) ≤ hardSum hand := by
  have h1 : aceCount hand ≤ hand.length := List.length_filter_le _ _
  have h2 := length_le_hardSum hand
  omega

/-- The ways of counting a hand are exactly: `k` of its Aces at 11, for every
`k` up to the number of Aces, with sum the hard sum plus `10 * k`. -/
theorem mem_aceCountings (hand : List Card) (k : Nat) (s : Int) :
    (k, s) ∈ aceCountings hand ↔ k ≤ aceCount hand ∧ s = hardSum hand + 10 * k := by
  induction hand generalizing k s with
  | nil =>
    simp only [aceCountings, aceCount, hardSum, List.mem_singleton, Prod.mk.injEq,
      List.filter_nil, List.length_nil, List.map_nil, List.sum_nil]
    omega
  | cons c rest ih =>
    by_cases hc : c.rank = Rank.Ace
    · rw [aceCountings, if_pos hc, aceCount_cons_ace c rest hc, hardSum_cons,
        Card.value_of_ace c hc]
      simp only [List.mem_append, List.mem_map, Prod.mk.injEq, Prod.exists]
      constructor
      · rintro (⟨k1, s1, hm, hk, hs⟩ | ⟨k1, s1, hm, hk, hs⟩)
        · have := (ih k1 s1).1 hm
          omega
        · have := (ih k1 s1).1 hm
          omega
      · rintro ⟨hk, hs⟩
        by_cases hle : k ≤ aceCount rest
        · exact Or.inl ⟨k, s - 1, (ih k (s - 1)).2 ⟨hle, by omega⟩, rfl, by omega⟩
        · exact Or.inr ⟨k - 1, s - 11, (ih (k - 1) (s - 11)).2 ⟨by omega, by omega⟩,
            by omega, by omega⟩
    · rw [aceCountings, if_neg hc, aceCount_cons_other c rest hc, hardSum_cons]
      simp only [List.mem_map, Prod.mk.injEq, Prod.exists]
      constructor
      · rintro ⟨k1, s1, hm, hk, hs⟩
        have := (ih k1 s1).1 hm
        omega
      · rintro ⟨hk, hs⟩
        exact ⟨k, s - c.value, (ih k (s - c.value)).2 ⟨hk, by omega⟩, rfl, by omega⟩

theorem mem_possibleSums (hand : List Card) (s : Int) :
    s ∈ possibleSums hand ↔ ∃ k : Nat, k ≤ aceCount hand ∧ s = hardSum hand + 10 * k := by
  unfold possibleSums
  simp only [List.mem_map, Prod.exists, exists_and_right, exists_eq_right]
  constructor
  · rintro ⟨k, hk⟩
    exact ⟨k, (mem_aceCountings hand k s).1 hk⟩
  · rintro ⟨k, hk⟩
    exact ⟨k, (mem_aceCountings hand k s).2 hk⟩

/-- C2: `Player::Total` is the best valid score of the hand.  Among all ways
of counting each Ace as 1 or 11: when some way gives a sum of at most 21,
`Total` is one of the sums, is at most 21 and is the largest sum that is at
most 21; when none does, `Total` is the smallest sum, the one with every Ace
counted 1; and a way that counts two or more Aces as 11 always gives more than
21. -/
theorem total_is_best_valid_score (p : Player) :
    ((∃ s ∈ possibleSums p.hand, s ≤ 21) →
        p.Total ∈ possibleSums p.hand ∧ p.Total ≤ 21
          ∧ ∀ s ∈ possibleSums p.hand, s ≤ 21 → s ≤ p.Total)
    ∧ ((¬ ∃ s ∈ possibleSums p.hand, s ≤ 21) →
        p.Total ∈ possibleSums p.hand ∧ p.Total = hardSum p.hand
          ∧ ∀ s ∈ possibleSums p.hand, p.Total ≤ s)
    ∧ (∀ ks ∈ aceCountings p.hand, 2 ≤ ks.1 → 21 < ks.2) := by
  have hA := aceCount_le_hardSum p._hand
  have hpos := aceCount_pos_iff p._hand
  have hT := Player.Total_eq p
  unfold Player.hand
  refine ⟨?_, ?_, ?_⟩
  · rintro ⟨s0, hs0, hle0⟩
    obtain ⟨k0, hk0, rfl⟩ := (mem_possibleSums _ _).1 hs0
    by_cases hsoft : (∃ c ∈ p._hand, c.rank = Rank.Ace) ∧ hardSum p._hand ≤ 11
    · rw [hT, if_pos hsoft]
      have h1 : 0 < aceCount p._hand := hpos.2 hsoft.1
      refine ⟨(mem_possibleSums _ _).2 ⟨1, h1, by norm_num⟩, by omega, ?_⟩
      intro s hs hle
      obtain ⟨k, hk, rfl⟩ := (mem_possibleSums _ _).1 hs
      omega
    · rw [hT, if_neg hsoft]
      refine ⟨(mem_possibleSums _ _).2 ⟨0, Nat.zero_le _, by norm_num⟩, by omega, ?_⟩
      intro s hs hle
      obtain ⟨k, hk, rfl⟩ := (mem_possibleSums _ _).1 hs
      rcases Nat.eq_zero_or_pos k with h0 | h0
      · subst h0; simp
      · exfalso
        apply hsoft
        exact ⟨hpos.1 (by omega), by omega⟩
  · intro hnone
    have hbig : 21 < hardSum p._hand := by
      by_contra hcon
      exact hnone ⟨hardSum p._hand,
        (mem_possibleSums _ _).2 ⟨0, Nat.zero_le _, by norm_num⟩, by omega⟩
    have hsoft : ¬ ((∃ c ∈ p._hand, c.rank = Rank.Ace) ∧ hardSum p._hand ≤ 11) := by
      rintro ⟨_, h⟩; omega
    rw [hT, if_neg hsoft]
    refine ⟨(mem_possibleSums _ _).2 ⟨0, Nat.zero_le _, by norm_num⟩, rfl, ?_⟩
    intro s hs
    obtain ⟨k, hk, rfl⟩ := (mem_possibleSums _ _).1 hs
    omega
  · rintro ⟨k, s⟩ hks h2
    have := (mem_aceCountings _ _ _).1 hks
    simp only at h2 ⊢
    omega

/-! ## The player's loop -/

theorem Player.hardSum_le_Total (p : Player) : hardSum p._hand ≤ p.Total := by
  rw [Player.Total_eq]
  split <;> omega

theorem Player.Total_le (p : Player) : p.Total ≤ hardSum p._hand + 10 := by
  rw [Player.Total_eq]
  split <;> omega

theorem playerLoop_nil (g : Game) :
    playerLoop g [] = .ended { status := .AwaitingInput, game := g, unread := [] } := rfl

theorem playerLoop_none (g : Game) (rest : List PlayerAction) :
    playerLoop g (PlayerAction.None :: rest) = playerLoop g rest := by
  simp [playerLoop]

theorem playerLoop_stand (g : Game) (rest : List PlayerAction) :
    playerLoop g (PlayerAction.Stand :: rest)
      = if g.player.Total > BLACKJACK then
          .ended { status := .PlayerBust, game := g, unread := rest }
        else .stood g rest := by
  simp [playerLoop, execute]

theorem playerLoop_hit_empty (g : Game) (rest : List PlayerAction)
    (h : g.dealPlayer = none) :
    playerLoop g (PlayerAction.Hit :: rest)
      = .ended { status := .DeckExhausted, game := g, unread := rest } := by
  simp [playerLoop, execute, h]

theorem playerLoop_hit (g g1 : Game) (rest : List PlayerAction)
    (h : g.dealPlayer = some g1) :
    playerLoop g (PlayerAction.Hit :: rest)
      = if g1.player.Total > BLACKJACK then
          .ended { status := .PlayerBust, game := g1, unread := rest }
        else playerLoop g1 rest := by
  simp [playerLoop, execute, h]

theorem Game.dealPlayer_dealer (g g1 : Game) (h : g.dealPlayer = some g1) :
    g1.dealer = g.dealer := by
  unfold Game.dealPlayer at h
  split at h
  · exact absurd h (by simp)
  · simp only [Option.some.injEq] at h
    rw [← h]

/-- A player's loop left by `stand` leaves a hand of at most 21 and the
dealer's hand as it was. -/
theorem playerLoop_stood (choices : List PlayerAction) (g g1 : Game)
    (unread : List PlayerAction) (h : playerLoop g choices = .stood g1 unread) :
    g1.player.Total ≤ BLACKJACK ∧ g1.dealer = g.dealer := by
  induction choices generalizing g with
  | nil => simp [playerLoop_nil] at h
  | cons a rest ih =>
    cases a with
    | None => rw [playerLoop_none] at h; exact ih g h
    | Stand =>
      rw [playerLoop_stand] at h
      split at h
      · simp at h
      · rename_i hle
        simp only [LoopExit.stood.injEq] at h
        obtain ⟨rfl, -⟩ := h
        exact ⟨by omega, rfl⟩
    | Hit =>
      cases hd : g.dealPlayer with
      | none => rw [playerLoop_hit_empty g rest hd] at h; simp at h
      | some g2 =>
        rw [playerLoop_hit g g2 rest hd] at h
        split at h
        · simp at h
        · obtain ⟨h1, h2⟩ := ih g2 h
          exact ⟨h1, h2.trans (Game.dealPlayer_dealer g g2 hd)⟩

/-! ## The final comparison -/

/-- C3: for every round that reaches the final comparison (the cards were
dealt, the player had no blackjack and left the loop by standing in state
`g1`, and the dealer finished its turn with the hand `dealer`), the round ends
as `PlayerWins` or `DealerWins`; it is `PlayerWins` exactly when the dealer's
total is above 21 or below the player's total, `DealerWins` in every other
case, and in particular on an exact tie. -/
theorem final_comparison_outcome (deck : Deck) (choices unread : List PlayerAction)
    (g g1 : Game) (dealer : Player) (left : Deck)
    (hdeal : dealCards deck = some g)
    (hnot21 : g.player.Total ≠ BLACKJACK)
    (hstood : playerLoop g choices = .stood g1 unread)
    (hdealer : dealerLoop g1.dealer g1.deck._deck = some (dealer, left)) :
    ((round deck choices).status = .PlayerWins ∨ (round deck choices).status = .DealerWins)
    ∧ ((round deck choices).status = .PlayerWins ↔
        (dealer.Total > 21 ∨ dealer.Total < g1.player.Total))
    ∧ ((round deck choices).status = .DealerWins ↔
        ¬ (dealer.Total > 21 ∨ dealer.Total < g1.player.Total))
    ∧ (dealer.Total = g1.player.Total → (round deck choices).status = .DealerWins)
    ∧ (round deck choices).game.player = g1.player
    ∧ (round deck choices).game.dealer = dealer := by
  have hp : g1.player.Total ≤ 21 := (playerLoop_stood choices g g1 unread hstood).1
  have hr : round deck choices
      = { status := finalComparison dealer g1.player,
          game := { g1 with deck := left, dealer := dealer }, unread := unread } := by
    simp [round, hdeal, hnot21, hstood, afterLoop, dealerTurn, hdealer]
  rw [hr]
  simp only [finalComparison, BLACKJACK, Bool.or_eq_true, decide_eq_true_eq]
  by_cases hw : dealer.Total > 21 ∨ dealer.Total < g1.player.Total
  · rw [if_pos hw]
    refine ⟨Or.inl rfl, ⟨fun _ => hw, fun _ => rfl⟩, ⟨fun h => by simp at h, fun h => absurd hw h⟩,
      ?_, trivial, trivial⟩
    intro htie
    omega
  · rw [if_neg hw]
    exact ⟨Or.inr rfl, ⟨fun h => by simp at h, fun h => absurd h hw⟩, ⟨fun _ => hw, fun _ => rfl⟩,
      fun _ => rfl, trivial, trivial⟩

/-- Scenario C: the player stands on 18, the dealer holds Ten and Six, draws
a King and busts with 26; the round ends as `PlayerWins`. -/
theorem final_comparison_outcome_witness :
    (round scenarioC [PlayerAction.Stand]).status = .PlayerWins
    ∧ (round scenarioC [PlayerAction.Stand]).game.dealer.Total = 26 := by
  have h := final_comparison_outcome scenarioC [PlayerAction.Stand] []
    { deck := { _deck := [Card.new .Clubs .King, Card.new .Clubs .Two] },
      player := { _hand := [Card.new .Hearts .Ten, Card.new .Hearts .Eight] },
      dealer := { _hand := [Card.new .Spades .Ten, Card.new .Spades .Six] } }
    { deck := { _deck := [Card.new .Clubs .King, Card.new .Clubs .Two] },
      player := { _hand := [Card.new .Hearts .Ten, Card.new .Hearts .Eight] },
      dealer := { _hand := [Card.new .Spades .Ten, Card.new .Spades .Six] } }
    { _hand := [Card.new .Spades .Ten, Card.new .Spades .Six, Card.new .Clubs .King] }
    { _deck := [Card.new .Clubs .Two] }
    (by decide) (by decide) (by decide) (by decide)
  refine ⟨h.2.1.2 (Or.inl (by decide)), ?_⟩
  rw [h.2.2.2.2.2]
  decide

/-! ## The dealer's turn -/

/-- The dealer's loop in the shape of the source: while the total is below
17, a card is dealt from the deck and added to the hand. -/
theorem dealerLoop_eq (dealer : Player) (deck : Deck) :
    dealerLoop dealer deck._deck
      = if dealer.Total < 17 then
          match deck.Deal with
          | none => none
          | some (c, below) => dealerLoop (dealer.AddCard c) below._deck
        else some (dealer, deck) := by
  obtain ⟨cards⟩ := deck
  cases cards with
  | nil => simp [dealerLoop, Deck.Deal]
  | cons top below => simp [dealerLoop, Deck.Deal]

/-- A deck that, with the dealer's hand, counts at least 17 cards holds enough
cards for the dealer to reach 17. -/
theorem enough_of_length (dealer : Player) (cards : List Card)
    (h : 17 ≤ dealer._hand.length + cards.length) :
    ∃ k, k ≤ cards.length ∧ 17 ≤ (Player.mk (dealer._hand ++ cards.take k)).Total := by
  refine ⟨cards.length, le_refl _, ?_⟩
  have h1 := Player.hardSum_le_Total (Player.mk (dealer._hand ++ cards.take cards.length))
  have h2 := length_le_hardSum (dealer._hand ++ cards.take cards.length)
  simp only [List.take_length, List.length_append, Nat.cast_add] at h1 h2
  simp only [List.take_length]
  omega

/-- C4: the dealer draws exactly while its total is below 17.  For every
dealer hand and every deck that holds enough cards for the hand to reach 17,
the loop ends having drawn the top `k` cards of the deck, where: `k = 0` when
the total was already 17 or more; `k` is at least 1 when the total was below
17; the total before each drawn card was below 17; and the final total is at
least 17. -/
theorem dealer_draws_while_below_17 (dealer : Player) (deck : Deck)
    (henough : ∃ k, k ≤ deck._deck.length
      ∧ 17 ≤ (Player.mk (dealer._hand ++ deck._deck.take k)).Total) :
    ∃ k, k ≤ deck._deck.length
      ∧ dealerLoop dealer deck._deck
          = some ({ _hand := dealer._hand ++ deck._deck.take k }, { _deck := deck._deck.drop k })
      ∧ (17 ≤ dealer.Total → k = 0)
      ∧ (dealer.Total < 17 → 1 ≤ k)
      ∧ (∀ j, j < k → (Player.mk (dealer._hand ++ deck._deck.take j)).Total < 17)
      ∧ 17 ≤ (Player.mk (dealer._hand ++ deck._deck.take k)).Total := by
  obtain ⟨cards⟩ := deck
  simp only at henough ⊢
  induction cards generalizing dealer with
  | nil =>
    obtain ⟨k, hk, h17⟩ := henough
    have hd : 17 ≤ dealer.Total := by simpa using h17
    refine ⟨0, le_refl _, ?_, fun _ => rfl, fun h => by omega, fun j hj => by omega, ?_⟩
    · simp [dealerLoop, not_lt.2 hd]
    · simpa using hd
  | cons top below ih =>
    by_cases hlt : dealer.Total < 17
    · obtain ⟨k, hk, h17⟩ := henough
      cases k with
      | zero =>
        have hd : 17 ≤ dealer.Total := by simpa using h17
        omega
      | succ k1 =>
        have hen : ∃ k, k ≤ below.length
            ∧ 17 ≤ (Player.mk ((dealer.AddCard top)._hand ++ below.take k)).Total :=
          ⟨k1, by simpa using hk, by simpa [Player.AddCard] using h17⟩
        obtain ⟨k2, hk2, heq, -, -, hbefore, hfinal⟩ := ih (dealer.AddCard top) hen
        refine ⟨k2 + 1, by simpa using hk2, ?_, fun h => by omega, fun _ => by omega, ?_, ?_⟩
        · rw [dealerLoop, if_pos hlt, heq]
          simp [Player.AddCard]
        · intro j hj
          cases j with
          | zero => simpa using hlt
          | succ j1 =>
            have := hbefore j1 (by omega)
            simpa [Player.AddCard] using this
        · simpa [Player.AddCard] using hfinal
    · have hd : 17 ≤ dealer.Total := not_lt.1 hlt
      refine ⟨0, Nat.zero_le _, ?_, fun _ => rfl, fun h => by omega, fun j hj => by omega, ?_⟩
      · simp [dealerLoop, hlt]
      · simpa using hd

/-- A soft 17: holding Ace and Six (total 17), the dealer draws nothing. -/
theorem dealer_draws_while_below_17_witness :
    (Player.mk [Card.new .Hearts .Ace, Card.new .Spades .Six]).Total = 17
    ∧ dealerLoop { _hand := [Card.new .Hearts .Ace, Card.new .Spades .Six] }
        [Card.new .Clubs .King, Card.new .Clubs .Two]
      = some ({ _hand := [Card.new .Hearts .Ace, Card.new .Spades .Six] },
          { _deck := [Card.new .Clubs .King, Card.new .Clubs .Two] }) := by
  refine ⟨by decide, ?_⟩
  obtain ⟨k, -, heq, h0, -⟩ := dealer_draws_while_below_17
    { _hand := [Card.new .Hearts .Ace, Card.new .Spades .Six] }
    { _deck := [Card.new .Clubs .King, Card.new .Clubs .Two] }
    ⟨0, by decide, by decide⟩
  have hk : k = 0 := h0 (by decide)
  subst hk
  simpa using heq

/-! ## The round -/

theorem dealCards_cons (c1 c2 c3 c4 : Card) (rest : List Card) :
    dealCards { _deck := c1 :: c2 :: c3 :: c4 :: rest }
      = some { deck := { _deck := rest }, player := { _hand := [c1, c2] },
               dealer := { _hand := [c3, c4] } } := by
  simp [dealCards, Game.dealPlayer, Game.dealDealer, Deck.Deal, Player.AddCard, Player.new]

/-- The cards can be dealt exactly when the deck holds at least four. -/
theorem dealCards_some (deck : Deck) (g : Game) (h : dealCards deck = some g) :
    ∃ c1 c2 c3 c4 rest, deck = { _deck := c1 :: c2 :: c3 :: c4 :: rest }
      ∧ g = { deck := { _deck := rest }, player := { _hand := [c1, c2] },
              dealer := { _hand := [c3, c4] } } := by
  obtain ⟨cards⟩ := deck
  match cards, h with
  | c1 :: c2 :: c3 :: c4 :: rest, h =>
    rw [dealCards_cons] at h
    exact ⟨c1, c2, c3, c4, rest, rfl, (Option.some.inj h).symm⟩
  | [], h => simp [dealCards, Game.dealPlayer, Deck.Deal] at h
  | [_], h => simp [dealCards, Game.dealPlayer, Deck.Deal] at h
  | [_, _], h => simp [dealCards, Game.dealPlayer, Game.dealDealer, Deck.Deal] at h
  | [_, _, _], h => simp [dealCards, Game.dealPlayer, Game.dealDealer, Deck.Deal] at h

theorem two_cards_le_21 (c1 c2 : Card) : (Player.mk [c1, c2]).Total ≤ 21 := by
  have h1 := Card.value_bounds c1
  have h2 := Card.value_bounds c2
  have h := Player.Total_eq (Player.mk [c1, c2])
  simp only [hardSum_cons, hardSum_nil] at h
  rw [h]
  split <;> omega

/-- While the player's loop is waiting for a decision, everything read so far
has been consumed, the dealer's hand is untouched, a hand that was at most 21
is still at most 21, and the loop goes on from the state reached. -/
theorem playerLoop_awaiting (pre : List PlayerAction) (g g1 : Game)
    (unread : List PlayerAction)
    (h : playerLoop g pre = .ended { status := .AwaitingInput, game := g1, unread := unread }) :
    unread = [] ∧ g1.dealer = g.dealer
      ∧ (g.player.Total ≤ BLACKJACK → g1.player.Total ≤ BLACKJACK)
      ∧ ∀ more, playerLoop g (pre ++ more) = playerLoop g1 more := by
  induction pre generalizing g with
  | nil =>
    simp only [playerLoop_nil, LoopExit.ended.injEq, Final.mk.injEq, true_and] at h
    obtain ⟨rfl, rfl⟩ := h
    exact ⟨rfl, rfl, id, fun more => rfl⟩
  | cons a rest ih =>
    cases a with
    | None =>
      rw [playerLoop_none] at h
      obtain ⟨h1, h2, h3, h4⟩ := ih g h
      refine ⟨h1, h2, h3, fun more => ?_⟩
      rw [List.cons_append, playerLoop_none]
      exact h4 more
    | Stand =>
      rw [playerLoop_stand] at h
      split at h <;> simp at h
    | Hit =>
      cases hd : g.dealPlayer with
      | none => rw [playerLoop_hit_empty g rest hd] at h; simp at h
      | some g2 =>
        rw [playerLoop_hit g g2 rest hd] at h
        split at h
        · simp at h
        · rename_i hle
          obtain ⟨h1, h2, h3, h4⟩ := ih g2 h
          refine ⟨h1, h2.trans (Game.dealPlayer_dealer g g2 hd), fun _ => h3 (by omega),
            fun more => ?_⟩
          rw [List.cons_append, playerLoop_hit g g2 _ hd, if_neg hle]
          exact h4 more

theorem dealerTurn_status (g : Game) (unread : List PlayerAction) :
    (dealerTurn g unread).status ≠ .AwaitingInput
      ∧ (dealerTurn g unread).status ≠ .PlayerBust
      ∧ (dealerTurn g unread).game.player = g.player := by
  unfold dealerTurn
  split
  · simp
  · simp only [finalComparison]
    split <;> simp

/-- A round that is waiting for a decision: the cards were dealt, the player
had no blackjack, and the player's loop is waiting in the state the round
reports. -/
theorem round_awaiting (deck : Deck) (pre : List PlayerAction)
    (h : (round deck pre).status = .AwaitingInput) :
    ∃ g0, dealCards deck = some g0 ∧ g0.player.Total ≠ BLACKJACK
      ∧ playerLoop g0 pre
          = .ended { status := .AwaitingInput, game := (round deck pre).game, unread := [] } := by
  unfold round at h ⊢
  cases hd : dealCards deck with
  | none => simp [hd] at h
  | some g0 =>
    simp only [hd] at h ⊢
    by_cases h21 : g0.player.Total = BLACKJACK
    · simp [h21] at h
    · simp only [if_neg h21] at h ⊢
      refine ⟨g0, rfl, h21, ?_⟩
      cases hl : playerLoop g0 pre with
      | stood g1 unread =>
        rw [hl] at h
        exact absurd h (dealerTurn_status g1 unread).1
      | ended f =>
        rw [hl] at h
        simp only [afterLoop] at h ⊢
        obtain ⟨st, gm, u⟩ := f
        simp only at h
        subst h
        have := (playerLoop_awaiting pre g0 gm u hl).1
        subst this
        rfl

/-- A round that is waiting for a decision goes on, when more decisions
arrive, from the state it reports. -/
theorem round_append (deck : Deck) (pre more : List PlayerAction)
    (h : (round deck pre).status = .AwaitingInput) :
    round deck (pre ++ more) = afterLoop (playerLoop (round deck pre).game more) := by
  obtain ⟨g0, hd, h21, hl⟩ := round_awaiting deck pre h
  have := (playerLoop_awaiting pre g0 _ _ hl).2.2.2 more
  conv_lhs => unfold round
  simp only [hd, if_neg h21, this]

/-- C5: blackjack short-circuit.  For every deck whose first two cards (the
player's) total 21, whatever the next two (the dealer's) are, the round ends
as `PlayerBlackjack` with no decision read, the dealer holding exactly its two
cards and the deck holding the cards after the fourth: 48 of them when the
deck had 52. -/
theorem blackjack_short_circuit (c1 c2 c3 c4 : Card) (rest : List Card)
    (choices : List PlayerAction) (h21 : (Player.mk [c1, c2]).Total = 21) :
    round { _deck := c1 :: c2 :: c3 :: c4 :: rest } choices
      = { status := .PlayerBlackjack,
          game := { deck := { _deck := rest }, player := { _hand := [c1, c2] },
                    dealer := { _hand := [c3, c4] } },
          unread := choices }
    ∧ ((Deck.mk (c1 :: c2 :: c3 :: c4 :: rest)).Size = 52 →
        (round { _deck := c1 :: c2 :: c3 :: c4 :: rest } choices).game.deck.Size = 48) := by
  have hr : round { _deck := c1 :: c2 :: c3 :: c4 :: rest } choices
      = { status := .PlayerBlackjack,
          game := { deck := { _deck := rest }, player := { _hand := [c1, c2] },
                    dealer := { _hand := [c3, c4] } },
          unread := choices } := by
    unfold round
    rw [dealCards_cons]
    simp only [BLACKJACK, h21, if_true]
  refine ⟨hr, ?_⟩
  rw [hr]
  simp only [Deck.Size, List.length_cons, Nat.cast_add, Nat.cast_one]
  intro h
  omega

/-- Scenario A with a dealer who also holds 21: the round ends as
`PlayerBlackjack` and the two decisions offered are left unread. -/
theorem blackjack_short_circuit_witness :
    (Player.mk [Card.new .Hearts .Ace, Card.new .Hearts .King]).Total = 21
    ∧ (Player.mk [Card.new .Spades .Ace, Card.new .Spades .Queen]).Total = 21
    ∧ round scenarioA [PlayerAction.Hit, PlayerAction.Stand]
      = { status := .PlayerBlackjack,
          game := { deck := { _deck := [Card.new .Clubs .Five, Card.new .Clubs .Two] },
                    player := { _hand := [Card.new .Hearts .Ace, Card.new .Hearts .King] },
                    dealer := { _hand := [Card.new .Spades .Ace, Card.new .Spades .Queen] } },
          unread := [PlayerAction.Hit, PlayerAction.Stand] } :=
  ⟨by decide, by decide,
    (blackjack_short_circuit (Card.new .Hearts .Ace) (Card.new .Hearts .King)
      (Card.new .Spades .Ace) (Card.new .Spades .Queen)
      [Card.new .Clubs .Five, Card.new .Clubs .Two]
      [PlayerAction.Hit, PlayerAction.Stand] (by decide)).1⟩

/-- C6: player-bust short-circuit.  In every state of a round in which the
player's turn is waiting for a decision (with a card `c` on top of the deck),
the dealer holds exactly the third and fourth cards of the deck, and a `Hit`
moves exactly the card `c` from the deck to the player's hand.  If the
player's total is then above 21 the round ends at once as `PlayerBust`, with
the later decisions unread and the dealer's hand as it was; if it is at most
21 the player's turn goes on from the new state. -/
theorem hit_then_bust_check (deck : Deck) (pre more : List PlayerAction)
    (c : Card) (below : List Card)
    (hlive : (round deck pre).status = .AwaitingInput)
    (htop : (round deck pre).game.deck._deck = c :: below) :
    (round deck pre).game.dealer._hand = (deck._deck.drop 2).take 2
    ∧ (round deck pre).game.dealer._hand.length = 2
    ∧ execute .Hit (round deck pre).game
        = some ({ deck := { _deck := below },
                  player := (round deck pre).game.player.AddCard c,
                  dealer := (round deck pre).game.dealer }, false)
    ∧ (((round deck pre).game.player.AddCard c).Total > 21 →
        round deck (pre ++ PlayerAction.Hit :: more)
          = { status := .PlayerBust,
              game := { deck := { _deck := below },
                        player := (round deck pre).game.player.AddCard c,
                        dealer := (round deck pre).game.dealer },
              unread := more })
    ∧ (((round deck pre).game.player.AddCard c).Total ≤ 21 →
        round deck (pre ++ [PlayerAction.Hit])
          = { status := .AwaitingInput,
              game := { deck := { _deck := below },
                        player := (round deck pre).game.player.AddCard c,
                        dealer := (round deck pre).game.dealer },
              unread := [] }
        ∧ round deck (pre ++ PlayerAction.Hit :: more)
          = afterLoop (playerLoop
              (Game.mk (Deck.mk below) ((round deck pre).game.player.AddCard c)
                (round deck pre).game.dealer) more)) := by
  obtain ⟨g0, hd, -, hl⟩ := round_awaiting deck pre hlive
  obtain ⟨c1, c2, c3, c4, rest, rfl, rfl⟩ := dealCards_some deck g0 hd
  have hdealer := (playerLoop_awaiting pre _ _ _ hl).2.1
  simp only at hdealer
  have hdp : (round { _deck := c1 :: c2 :: c3 :: c4 :: rest } pre).game.dealPlayer
      = some { deck := { _deck := below },
               player := (round { _deck := c1 :: c2 :: c3 :: c4 :: rest } pre).game.player.AddCard c,
               dealer := (round { _deck := c1 :: c2 :: c3 :: c4 :: rest } pre).game.dealer } := by
    simp [Game.dealPlayer, Deck.Deal, htop]
  refine ⟨by simp [hdealer], by simp [hdealer], by simp [execute, hdp], ?_, ?_⟩
  · intro hbust
    rw [round_append _ pre _ hlive, playerLoop_hit _ _ more hdp, if_pos (by simpa [BLACKJACK] using hbust)]
    rfl
  · intro hle
    have hnb : ¬ ((round { _deck := c1 :: c2 :: c3 :: c4 :: rest } pre).game.player.AddCard c).Total
        > BLACKJACK := by simpa [BLACKJACK] using hle
    constructor
    · rw [round_append _ pre _ hlive, playerLoop_hit _ _ [] hdp, if_neg hnb]
      rfl
    · rw [round_append _ pre _ hlive, playerLoop_hit _ _ more hdp, if_neg hnb]

/-- Scenario B: holding Ten and Nine, the player hits a Five, totals 24, and
the round ends as `PlayerBust` with the following `Stand` unread and the
dealer holding its two cards. -/
theorem hit_then_bust_check_witness :
    round scenarioB [PlayerAction.Hit, PlayerAction.Stand]
      = { status := .PlayerBust,
          game := { deck := { _deck := [Card.new .Clubs .Two] },
                    player := { _hand := [Card.new .Hearts .Ten, Card.new .Hearts .Nine,
                      Card.new .Clubs .Five] },
                    dealer := { _hand := [Card.new .Spades .Seven, Card.new .Spades .Queen] } },
          unread := [PlayerAction.Stand] }
    ∧ (Player.mk [Card.new .Hearts .Ten, Card.new .Hearts .Nine,
        Card.new .Clubs .Five]).Total = 24 :=
  ⟨(hit_then_bust_check scenarioB [] [PlayerAction.Stand] (Card.new .Clubs .Five)
      [Card.new .Clubs .Two] (by decide) (by decide)).2.2.2.1 (by decide), by decide⟩

/-! ## Unrecognised decisions -/

theorem removeNone_none (rest : List PlayerAction) :
    removeNone (PlayerAction.None :: rest) = removeNone rest := by
  simp [removeNone]

theorem removeNone_hit (rest : List PlayerAction) :
    removeNone (PlayerAction.Hit :: rest) = PlayerAction.Hit :: removeNone rest := by
  simp [removeNone]

theorem removeNone_stand (rest : List PlayerAction) :
    removeNone (PlayerAction.Stand :: rest) = PlayerAction.Stand :: removeNone rest := by
  simp [removeNone]

theorem removeNone_insert (pre post : List PlayerAction) :
    removeNone (pre ++ PlayerAction.None :: post) = removeNone (pre ++ post) := by
  simp [removeNone]

/-- The player's loop on a stream without its `None`s leaves as on the stream
itself, up to the `None`s among the values never read. -/
theorem playerLoop_removeNone (choices : List PlayerAction) (g : Game) :
    playerLoop g (removeNone choices) = (playerLoop g choices).withoutNone := by
  induction choices generalizing g with
  | nil => rfl
  | cons a rest ih =>
    cases a with
    | None => rw [removeNone_none, playerLoop_none, ih]
    | Stand =>
      rw [removeNone_stand, playerLoop_stand, playerLoop_stand]
      split <;> rfl
    | Hit =>
      rw [removeNone_hit]
      cases hd : g.dealPlayer with
      | none =>
        rw [playerLoop_hit_empty g _ hd, playerLoop_hit_empty g _ hd]
        rfl
      | some g2 =>
        rw [playerLoop_hit g g2 _ hd, playerLoop_hit g g2 _ hd]
        split
        · rfl
        · exact ih g2

theorem dealerTurn_removeNone (g : Game) (unread : List PlayerAction) :
    dealerTurn g (removeNone unread) = (dealerTurn g unread).withoutNone := by
  unfold dealerTurn
  split <;> rfl

theorem round_removeNone (deck : Deck) (choices : List PlayerAction) :
    round deck (removeNone choices) = (round deck choices).withoutNone := by
  unfold round
  split
  · rfl
  · split
    · rfl
    · rw [playerLoop_removeNone]
      cases playerLoop _ choices with
      | ended f => rfl
      | stood g1 unread => exact dealerTurn_removeNone g1 unread

/-- C7: unrecognised decisions are no-ops.  For every deck and every finite
stream of decisions, the round played on the stream with every `None` removed
ends with the same status, player hand, dealer hand and deck as the round
played on the stream itself (the values left unread differ only by their
`None`s); and a `None` inserted anywhere in a stream changes neither the
status nor the hands nor the deck at the end: it deals no card and ends no
turn. -/
theorem unrecognized_decision_is_noop (deck : Deck) (choices : List PlayerAction) :
    (round deck (removeNone choices)).status = (round deck choices).status
    ∧ (round deck (removeNone choices)).game.player = (round deck choices).game.player
    ∧ (round deck (removeNone choices)).game.dealer = (round deck choices).game.dealer
    ∧ (round deck (removeNone choices)).game.deck = (round deck choices).game.deck
    ∧ (round deck (removeNone choices)).unread = removeNone (round deck choices).unread
    ∧ (∀ pre post, choices = pre ++ post →
        (round deck (pre ++ PlayerAction.None :: post)).status = (round deck choices).status
        ∧ (round deck (pre ++ PlayerAction.None :: post)).game = (round deck choices).game)
    ∧ (∀ g : Game, playerLoop g (PlayerAction.None :: choices) = playerLoop g choices) := by
  have h := round_removeNone deck choices
  refine ⟨by rw [h]; rfl, by rw [h]; rfl, by rw [h]; rfl, by rw [h]; rfl, by rw [h]; rfl, ?_,
    fun g => playerLoop_none g choices⟩
  rintro pre post rfl
  have h1 := round_removeNone deck (pre ++ PlayerAction.None :: post)
  rw [removeNone_insert, h] at h1
  have hs := congrArg Final.status h1
  have hg := congrArg Final.game h1
  simp only [Final.withoutNone] at hs hg
  exact ⟨hs.symm, hg.symm⟩

/-! ## Standing -/

/-- C8: a `Stand` always leads to the dealer's turn.  Whenever a round is
waiting for a decision, the player's total is at most 21 (every two-card hand
is at most 21, and the loop only goes on after a `Hit` that left the total at
most 21); so a `Stand` leaves the player's hand and the deck as they are, the
bust check after it does not fire, and the round goes on with the dealer's
turn: it never ends as `PlayerBust`. -/
theorem stand_leads_to_dealer_turn (deck : Deck) (pre post : List PlayerAction)
    (hlive : (round deck pre).status = .AwaitingInput) :
    (round deck pre).game.player.Total ≤ 21
    ∧ (∀ c1 c2 : Card, (Player.mk [c1, c2]).Total ≤ 21)
    ∧ execute .Stand (round deck pre).game = some ((round deck pre).game, true)
    ∧ playerLoop (round deck pre).game (PlayerAction.Stand :: post)
        = .stood (round deck pre).game post
    ∧ round deck (pre ++ PlayerAction.Stand :: post) = dealerTurn (round deck pre).game post
    ∧ (round deck (pre ++ PlayerAction.Stand :: post)).status ≠ .PlayerBust
    ∧ (round deck (pre ++ PlayerAction.Stand :: post)).game.player
        = (round deck pre).game.player := by
  obtain ⟨g0, hd, -, hl⟩ := round_awaiting deck pre hlive
  obtain ⟨c1, c2, c3, c4, rest, rfl, rfl⟩ := dealCards_some deck g0 hd
  have hle : (round { _deck := c1 :: c2 :: c3 :: c4 :: rest } pre).game.player.Total ≤ 21 :=
    (playerLoop_awaiting pre _ _ _ hl).2.2.1 (two_cards_le_21 c1 c2)
  have hstand : playerLoop (round { _deck := c1 :: c2 :: c3 :: c4 :: rest } pre).game
      (PlayerAction.Stand :: post)
      = .stood (round { _deck := c1 :: c2 :: c3 :: c4 :: rest } pre).game post := by
    rw [playerLoop_stand, if_neg (by simpa [BLACKJACK] using hle)]
  have hr : round { _deck := c1 :: c2 :: c3 :: c4 :: rest } (pre ++ PlayerAction.Stand :: post)
      = dealerTurn (round { _deck := c1 :: c2 :: c3 :: c4 :: rest } pre).game post := by
    rw [round_append _ pre _ hlive, hstand]
    rfl
  refine ⟨hle, two_cards_le_21, rfl, hstand, hr, ?_, ?_⟩
  · rw [hr]
    exact (dealerTurn_status _ post).2.1
  · rw [hr]
    exact (dealerTurn_status _ post).2.2

/-- Scenario C played as a stream: with nothing read the round waits on the
player's 18; the `Stand` then leads to the dealer's turn, which ends the round
as `PlayerWins`, not as `PlayerBust`. -/
theorem stand_leads_to_dealer_turn_witness :
    (round scenarioC []).status = .AwaitingInput
    ∧ (round scenarioC []).game.player.Total = 18
    ∧ round scenarioC ([] ++ PlayerAction.Stand :: [PlayerAction.Hit])
        = dealerTurn (round scenarioC []).game [PlayerAction.Hit]
    ∧ (round scenarioC ([] ++ PlayerAction.Stand :: [PlayerAction.Hit])).status
        ≠ .PlayerBust :=
  ⟨by decide, by decide,
    (stand_leads_to_dealer_turn scenarioC [] [PlayerAction.Hit] (by decide)).2.2.2.2.1,
    (stand_leads_to_dealer_turn scenarioC [] [PlayerAction.Hit] (by decide)).2.2.2.2.2.1⟩

/-! ## The effect of a Hit on the total -/

/-- C9, as stated, fails: in the round on `softTwenty` the player holds Ace
and Nine, a soft 20; the `Hit` deals the Five of Clubs and the three-card hand
totals 15, which is less than 20. -/
theorem hit_can_lower_total :
    (round softTwenty []).game.player
        = { _hand := [Card.new .Hearts .Ace, Card.new .Hearts .Nine] }
    ∧ (round softTwenty []).game.player.Total = 20
    ∧ (round softTwenty [PlayerAction.Hit]).game.player
        = (round softTwenty []).game.player.AddCard (Card.new .Clubs .Five)
    ∧ (round softTwenty [PlayerAction.Hit]).game.player.Total = 15
    ∧ ¬ ((round softTwenty []).game.player.Total
          < ((round softTwenty []).game.player.AddCard (Card.new .Clubs .Five)).Total) := by
  decide

/-- C9, amended: for every hand and every card added to it, the hard sum
(every Ace counted 1) grows by the value of the card, hence strictly.  The
total after the card is strictly greater than the total before unless the hand
was soft (an Ace counted 11) and the card takes the hard sum above 11; in that
case the total changes by the value of the card minus 10, so it does not
grow. -/
theorem hit_total_change (p : Player) (c : Card) :
    hardSum (p.AddCard c).hand = hardSum p.hand + c.value
    ∧ hardSum p.hand < hardSum (p.AddCard c).hand
    ∧ (¬ (isSoft p.hand ∧ 11 < hardSum p.hand + c.value) → p.Total < (p.AddCard c).Total)
    ∧ (isSoft p.hand ∧ 11 < hardSum p.hand + c.value →
        (p.AddCard c).Total = p.Total + c.value - 10 ∧ (p.AddCard c).Total ≤ p.Total) := by
  have hv := Card.value_bounds c
  have hsum : hardSum (p._hand ++ [c]) = hardSum p._hand + c.value := by
    rw [hardSum_append, hardSum_cons, hardSum_nil, add_zero]
  have hace : (∃ x ∈ p._hand ++ [c], x.rank = Rank.Ace)
      ↔ ((∃ x ∈ p._hand, x.rank = Rank.Ace) ∨ c.rank = Rank.Ace) := by
    simp only [List.mem_append, List.mem_singleton]
    constructor
    · rintro ⟨x, hx | hx, hr⟩
      · exact Or.inl ⟨x, hx, hr⟩
      · exact Or.inr (hx ▸ hr)
    · rintro (⟨x, hx, hr⟩ | hr)
      · exact ⟨x, Or.inl hx, hr⟩
      · exact ⟨c, Or.inr rfl, hr⟩
  have h0 := Player.Total_eq p
  have h1 := Player.Total_eq (p.AddCard c)
  have hlen := length_le_hardSum p._hand
  simp only [Player.AddCard, hsum, hace] at h1
  simp only [Player.AddCard, Player.hand, isSoft, hsum]
  refine ⟨trivial, by omega, ?_, ?_⟩
  · intro hns
    by_cases hA : ∃ x ∈ p._hand, x.rank = Rank.Ace
    · by_cases h11 : hardSum p._hand ≤ 11
      · have h11' : hardSum p._hand + c.value ≤ 11 := by
          by_contra hcon
          exact hns ⟨⟨hA, h11⟩, by omega⟩
        rw [if_pos ⟨hA, h11⟩] at h0
        rw [if_pos ⟨Or.inl hA, h11'⟩] at h1
        omega
      · rw [if_neg (fun h => h11 h.2)] at h0
        rw [if_neg (fun h => h11 (by omega))] at h1
        omega
    · rw [if_neg (fun h => hA h.1)] at h0
      split at h1 <;> omega
  · rintro ⟨⟨hA, h11⟩, hbig⟩
    rw [if_pos ⟨hA, h11⟩] at h0
    rw [if_neg (fun h => by omega)] at h1
    omega

/-! ## The fresh deck -/

/-- The conversions of the constructor of `Deck` are exact on the integers it
converts. -/
theorem rank_toInt_fromNat (n : Nat) (h1 : 1 ≤ n) (h13 : n ≤ 13) :
    (Rank.fromNat n).toInt = n := by
  interval_cases n <;> rfl

theorem suit_toInt_fromNat (n : Nat) (h1 : 1 ≤ n) (h4 : n ≤ 4) :
    (Suit.fromNat n).toInt = n := by
  interval_cases n <;> rfl

/-- C10: a freshly constructed deck holds exactly 52 cards, contains the card
of every (suit, rank) pair, and contains no pair twice. -/
theorem fresh_deck_is_complete :
    Deck.new.Size = 52
    ∧ (∀ (s : Suit) (r : Rank), Card.new s r ∈ Deck.new._deck)
    ∧ (∀ (s : Suit) (r : Rank), (s, r) ∈ Deck.new.pairs)
    ∧ Deck.new.pairs.Nodup
    ∧ Deck.new._deck.Nodup := by
  refine ⟨by decide, ?_, ?_, by decide, by decide⟩
  · intro s r
    cases s <;> cases r <;> decide
  · intro s r
    cases s <;> cases r <;> decide

/-! ## The deck at the dealer's turn -/

theorem Game.dealPlayer_cards (g g1 : Game) (h : g.dealPlayer = some g1) :
    g1.player._hand.length + g1.deck._deck.length
      = g.player._hand.length + g.deck._deck.length := by
  obtain ⟨⟨cards⟩, player, dealer⟩ := g
  cases cards with
  | nil => simp [Game.dealPlayer, Deck.Deal] at h
  | cons top below =>
    simp only [Game.dealPlayer, Deck.Deal, Option.some.injEq] at h
    subst h
    simp only [Player.AddCard, List.length_append, List.length_cons, List.length_nil]
    omega

/-- The player's loop moves cards from the deck to the player's hand only. -/
theorem playerLoop_stood_cards (choices : List PlayerAction) (g g1 : Game)
    (unread : List PlayerAction) (h : playerLoop g choices = .stood g1 unread) :
    g1.player._hand.length + g1.deck._deck.length
      = g.player._hand.length + g.deck._deck.length := by
  induction choices generalizing g with
  | nil => simp [playerLoop_nil] at h
  | cons a rest ih =>
    cases a with
    | None => rw [playerLoop_none] at h; exact ih g h
    | Stand =>
      rw [playerLoop_stand] at h
      split at h
      · simp at h
      · simp only [LoopExit.stood.injEq] at h
        obtain ⟨rfl, -⟩ := h
        rfl
    | Hit =>
      cases hd : g.dealPlayer with
      | none => rw [playerLoop_hit_empty g rest hd] at h; simp at h
      | some g2 =>
        rw [playerLoop_hit g g2 rest hd] at h
        split at h
        · simp at h
        · exact (ih g2 h).trans (Game.dealPlayer_cards g g2 hd)

/-- In a round played on a deck of 52 cards, when the player has stood the
deck still holds enough cards for the dealer to reach 17: the hypothesis of
`dealer_draws_while_below_17` holds at the start of every dealer's turn. -/
theorem dealer_turn_has_enough (deck : Deck) (choices unread : List PlayerAction)
    (g g1 : Game) (h52 : deck._deck.length = 52)
    (hdeal : dealCards deck = some g)
    (hstood : playerLoop g choices = .stood g1 unread) :
    29 ≤ g1.deck._deck.length
    ∧ ∃ k, k ≤ g1.deck._deck.length
        ∧ 17 ≤ (Player.mk (g1.dealer._hand ++ g1.deck._deck.take k)).Total := by
  obtain ⟨c1, c2, c3, c4, rest, rfl, rfl⟩ := dealCards_some deck g hdeal
  have hcards := playerLoop_stood_cards choices _ g1 unread hstood
  obtain ⟨htot, hdealer⟩ := playerLoop_stood choices _ g1 unread hstood
  have h1 := Player.hardSum_le_Total g1.player
  have h2 := length_le_hardSum g1.player._hand
  simp only [List.length_cons, List.length_nil] at hcards h52
  simp only [BLACKJACK] at htot
  have hdeck : 29 ≤ g1.deck._deck.length := by omega
  refine ⟨hdeck, enough_of_length g1.dealer g1.deck._deck ?_⟩
  omega

/-! ## Shuffling -/

/-- The first loop of `Deck::Shuffle` moves the top `n` cards of the stack to
the end of the vector, top card first. -/
theorem Deck.popAll_eq (n : Nat) (cards : List Card) (d : Deck) :
    Deck.popAll n cards d = (cards ++ d._deck.take n, { _deck := d._deck.drop n }) := by
  induction n generalizing cards d with
  | zero => simp [Deck.popAll]
  | succ i ih =>
    obtain ⟨l⟩ := d
    cases l with
    | nil => simp [Deck.popAll]
    | cons top below =>
      rw [Deck.popAll]
      simp only [ih, List.take_succ_cons, List.drop_succ_cons, List.append_assoc,
        List.singleton_append]

/-- The second loop of `Deck::Shuffle` pushes the first `n` cards of the
vector, so that they lie on the stack in reverse order. -/
theorem Deck.pushAll_eq (n : Nat) (cards : List Card) (d : Deck) :
    Deck.pushAll n cards d = { _deck := (cards.take n).reverse ++ d._deck } := by
  induction n generalizing cards d with
  | zero => simp [Deck.pushAll]
  | succ i ih =>
    cases cards with
    | nil => simp [Deck.pushAll]
    | cons c rest =>
      rw [Deck.pushAll, ih]
      simp [Deck.push]

theorem Deck.Shuffle_eq (stdShuffle : List Card → List Card) (d : Deck) :
    d.Shuffle stdShuffle
      = { _deck := ((stdShuffle d._deck).take d._deck.length).reverse } := by
  simp [Deck.Shuffle, Deck.popAll_eq, Deck.pushAll_eq]

/-- A shuffled deck holds the cards of the deck it was made from. -/
theorem Deck.Shuffle_perm (stdShuffle : List Card → List Card)
    (hperm : ∀ l, (stdShuffle l).Perm l) (d : Deck) :
    (d.Shuffle stdShuffle)._deck.Perm d._deck := by
  rw [Deck.Shuffle_eq]
  have hlen : (stdShuffle d._deck).length = d._deck.length := (hperm d._deck).length_eq
  have htake : (stdShuffle d._deck).take d._deck.length = stdShuffle d._deck := by
    rw [← hlen, List.take_length]
  simp only [htake]
  exact (List.reverse_perm _).trans (hperm d._deck)

/-- C11: `Deck::Shuffle` is a permutation.  For every deck and every
rearrangement `stdShuffle` that `std::shuffle` may apply to the vector (any
function that returns a permutation of its argument), the deck after `Shuffle`
holds the same cards with the same multiplicities as before and its `Size` is
unchanged.  The first loop moves all the cards to the vector and empties the
stack, the second pushes all of them back: the deck after `Shuffle` is the
rearranged vector, its last card on top. -/
theorem shuffle_is_permutation (stdShuffle : List Card → List Card)
    (hperm : ∀ l, (stdShuffle l).Perm l) (d : Deck) :
    (d.Shuffle stdShuffle)._deck.Perm d._deck
    ∧ (∀ c : Card, (d.Shuffle stdShuffle)._deck.count c = d._deck.count c)
    ∧ (d.Shuffle stdShuffle).Size = d.Size
    ∧ Deck.popAll d._deck.length [] d = (d._deck, { _deck := [] })
    ∧ Deck.pushAll d._deck.length (stdShuffle d._deck) { _deck := [] }
        = { _deck := (stdShuffle d._deck).reverse }
    ∧ d.Shuffle stdShuffle = { _deck := (stdShuffle d._deck).reverse } := by
  have hp := Deck.Shuffle_perm stdShuffle hperm d
  have hlen : (stdShuffle d._deck).length = d._deck.length := (hperm d._deck).length_eq
  have htake : (stdShuffle d._deck).take d._deck.length = stdShuffle d._deck := by
    rw [← hlen, List.take_length]
  refine ⟨hp, fun c => hp.count_eq c, ?_, ?_, ?_, ?_⟩
  · simp only [Deck.Size, hp.length_eq]
  · simp [Deck.popAll_eq]
  · simp [Deck.pushAll_eq, htake]
  · rw [Deck.Shuffle_eq, htake]

/-- With a `std::shuffle` that reverses the vector, the shuffle of the deck
of scenario C is a deck of the same size: the same six cards, those of the
vector from its last to its first. -/
theorem shuffle_is_permutation_witness :
    (scenarioC.Shuffle List.reverse)._deck.Perm scenarioC._deck
    ∧ (scenarioC.Shuffle List.reverse).Size = 6
    ∧ scenarioC.Shuffle List.reverse = { _deck := (List.reverse scenarioC._deck).reverse } :=
  ⟨(shuffle_is_permutation List.reverse (fun l => List.reverse_perm l) scenarioC).1,
    ((shuffle_is_permutation List.reverse (fun l => List.reverse_perm l) scenarioC).2.2.1).trans
      (by decide),
    (shuffle_is_permutation List.reverse (fun l => List.reverse_perm l) scenarioC).2.2.2.2.2⟩

/-! ## Dealing -/

/-- C12: for every non-empty deck, `Deck::Deal` returns the card on top, the
most recently pushed one, and leaves the deck that was below it; so `Size`
goes down by exactly 1 with each `Deal`, and with each `Hit`, which deals one
card to the player.  (`Size` is a query: it returns a number and no deck.) -/
theorem deal_returns_top (d : Deck) (hne : d._deck ≠ []) :
    ∃ top below, d.Deal = some (top, below)
      ∧ d = below.push top
      ∧ d._deck = top :: below._deck
      ∧ below.Size = d.Size - 1
      ∧ (∀ c : Card, (d.push c).Deal = some (c, d))
      ∧ (∀ player dealer : Player,
          execute .Hit { deck := d, player := player, dealer := dealer }
            = some ({ deck := below, player := player.AddCard top, dealer := dealer }, false)) := by
  obtain ⟨cards⟩ := d
  cases cards with
  | nil => exact absurd rfl hne
  | cons top below =>
    refine ⟨top, { _deck := below }, rfl, rfl, rfl, ?_, fun c => rfl, fun player dealer => rfl⟩
    simp only [Deck.Size, List.length_cons, Nat.cast_add, Nat.cast_one]
    omega

/-- On the deck of scenario C, `Deal` returns the Ten of Hearts, which is on
top, and leaves the five cards below it. -/
theorem deal_returns_top_witness :
    ∃ top below, scenarioC.Deal = some (top, below)
      ∧ top = Card.new .Hearts .Ten ∧ scenarioC.Size = 6 ∧ below.Size = 5 := by
  obtain ⟨top, below, hdeal, -, htop, hsize, -⟩ := deal_returns_top scenarioC (by decide)
  refine ⟨top, below, hdeal, ?_, by decide, ?_⟩
  · have h : scenarioC._deck.head? = some top := by rw [htop]; rfl
    exact (Option.some.inj h).symm
  · rw [hsize]
    decide

/-! ## Cards -/

/-- C13: for every suit and every rank, the constructed card reports that
suit and that rank and has value `min n 10`, where `n` is the number of the
rank (Ace 1, Two 2, ..., Ten 10, Jack 11, Queen 12, King 13); so every card
is worth between 1 and 10, an Ace 1, and Ten, Jack, Queen and King 10. -/
theorem card_value_is_min_rank_10 (s : Suit) (r : Rank) :
    (Card.new s r).suit = s
    ∧ (Card.new s r).rank = r
    ∧ (Card.new s r).value = min r.toInt 10
    ∧ 1 ≤ (Card.new s r).value ∧ (Card.new s r).value ≤ 10
    ∧ (∀ c : Card, c.value = min c.rank.toInt 10 ∧ 1 ≤ c.value ∧ c.value ≤ 10)
    ∧ (Card.new s .Ace).value = 1
    ∧ (Card.new s .Ten).value = 10 ∧ (Card.new s .Jack).value = 10
    ∧ (Card.new s .Queen).value = 10 ∧ (Card.new s .King).value = 10
    ∧ [Rank.Ace, .Two, .Three, .Four, .Five, .Six, .Seven, .Eight, .Nine, .Ten, .Jack,
        .Queen, .King].map Rank.toInt = [1, 2, 3, 4, 5, 6, 7, 8, 9, 10, 11, 12, 13] := by
  have hmin : ∀ r : Rank, Card.RankToValue r = min r.toInt 10 := by
    intro r
    cases r <;> decide
  refine ⟨rfl, rfl, hmin r, (Card.value_bounds _).1, (Card.value_bounds _).2, ?_,
    rfl, rfl, rfl, rfl, rfl, rfl⟩
  intro c
  exact ⟨(Card.value_eq c).trans (hmin c.rank), Card.value_bounds c⟩

/-! ## Scoring and the order of the cards -/

theorem hardSum_perm (xs ys : List Card) (h : xs.Perm ys) : hardSum xs = hardSum ys :=
  (h.map Card.value).sum_eq

/-- C16: scoring ignores the order of the cards.  For every hand and every
permutation of its cards, `Player::Total` of the permuted hand equals
`Player::Total` of the hand. -/
theorem total_ignores_order (p q : Player) (h : q.hand.Perm p.hand) :
    q.Total = p.Total := by
  unfold Player.hand at h
  have hace : (∃ c ∈ q._hand, c.rank = Rank.Ace) ↔ (∃ c ∈ p._hand, c.rank = Rank.Ace) := by
    constructor
    · rintro ⟨c, hc, hr⟩
      exact ⟨c, h.mem_iff.1 hc, hr⟩
    · rintro ⟨c, hc, hr⟩
      exact ⟨c, h.mem_iff.2 hc, hr⟩
  rw [Player.Total_eq, Player.Total_eq, hardSum_perm _ _ h]
  simp only [hace]

/-- Ace, Nine, Five scores 15 in that order and in the order Five, Ace, Nine. -/
theorem total_ignores_order_witness :
    (Player.mk [Card.new .Clubs .Five, Card.new .Hearts .Ace, Card.new .Hearts .Nine]).Total
      = (Player.mk [Card.new .Hearts .Ace, Card.new .Hearts .Nine, Card.new .Clubs .Five]).Total
    ∧ (Player.mk [Card.new .Hearts .Ace, Card.new .Hearts .Nine,
        Card.new .Clubs .Five]).Total = 15 :=
  ⟨total_ignores_order
      (Player.mk [Card.new .Hearts .Ace, Card.new .Hearts .Nine, Card.new .Clubs .Five])
      (Player.mk [Card.new .Clubs .Five, Card.new .Hearts .Ace, Card.new .Hearts .Nine])
      (by decide),
    by decide⟩

/-! ## Deck exhaustion -/

/-- The dealer's loop ends without fault when the deck holds enough cards for
the hand to reach 17. -/
theorem dealerLoop_some_of_enough (cards : List Card) (dealer : Player)
    (henough : ∃ k, k ≤ cards.length
      ∧ 17 ≤ (Player.mk (dealer._hand ++ cards.take k)).Total) :
    ∃ r, dealerLoop dealer cards = some r := by
  induction cards generalizing dealer with
  | nil =>
    obtain ⟨k, -, h17⟩ := henough
    have hd : 17 ≤ dealer.Total := by simpa using h17
    exact ⟨(dealer, { _deck := [] }), by simp [dealerLoop, not_lt.2 hd]⟩
  | cons top below ih =>
    by_cases hlt : dealer.Total < 17
    · obtain ⟨k, hk, h17⟩ := henough
      cases k with
      | zero =>
        have hd : 17 ≤ dealer.Total := by simpa using h17
        omega
      | succ k1 =>
        rw [dealerLoop, if_pos hlt]
        exact ih (dealer.AddCard top)
          ⟨k1, by simpa using hk, by simpa [Player.AddCard] using h17⟩
    · exact ⟨(dealer, { _deck := top :: below }), by simp [dealerLoop, hlt]⟩

theorem Game.dealPlayer_isSome (g : Game) (h : g.deck._deck ≠ []) :
    ∃ g1, g.dealPlayer = some g1 := by
  obtain ⟨⟨cards⟩, player, dealer⟩ := g
  cases cards with
  | nil => exact absurd rfl h
  | cons top below => exact ⟨_, rfl⟩

/-- While the player's hand is at most 21 and hand and deck together count at
least 22 cards, no `Hit` finds the deck empty. -/
theorem playerLoop_not_exhausted (choices : List PlayerAction) (g : Game)
    (hle : g.player.Total ≤ BLACKJACK)
    (hcards : 22 ≤ g.player._hand.length + g.deck._deck.length)
    (f : Final) (h : playerLoop g choices = .ended f) :
    f.status ≠ .DeckExhausted := by
  induction choices generalizing g with
  | nil =>
    rw [playerLoop_nil] at h
    simp only [LoopExit.ended.injEq] at h
    subst h
    simp
  | cons a rest ih =>
    cases a with
    | None => rw [playerLoop_none] at h; exact ih g hle hcards h
    | Stand =>
      rw [playerLoop_stand] at h
      split at h
      · simp only [LoopExit.ended.injEq] at h
        subst h
        simp
      · simp at h
    | Hit =>
      have h1 := Player.hardSum_le_Total g.player
      have h2 := length_le_hardSum g.player._hand
      simp only [BLACKJACK] at hle
      have hne : g.deck._deck ≠ [] := by
        intro hnil
        rw [hnil] at hcards
        simp only [List.length_nil, add_zero] at hcards
        omega
      obtain ⟨g2, hd⟩ := Game.dealPlayer_isSome g hne
      rw [playerLoop_hit g g2 rest hd] at h
      split at h
      · simp only [LoopExit.ended.injEq] at h
        subst h
        simp
      · rename_i hnb
        have hc := Game.dealPlayer_cards g g2 hd
        exact ih g2 (by omega) (by omega) h

/-- A round on a deck of 52 cards never deals from an empty deck. -/
theorem round_not_exhausted_of_length (deck : Deck) (choices : List PlayerAction)
    (h52 : deck._deck.length = 52) :
    (round deck choices).status ≠ .DeckExhausted := by
  obtain ⟨cards⟩ := deck
  match cards, h52 with
  | c1 :: c2 :: c3 :: c4 :: rest, h52 =>
    have hrest : rest.length = 48 := by
      simp only [List.length_cons] at h52
      omega
    unfold round
    rw [dealCards_cons]
    simp only
    split
    · simp
    · cases hl : playerLoop _ choices with
      | ended f =>
        simp only [afterLoop]
        refine playerLoop_not_exhausted choices _ (two_cards_le_21 c1 c2) ?_ f hl
        simp only [List.length_cons, List.length_nil, hrest]
        omega
      | stood g1 unread =>
        simp only [afterLoop]
        obtain ⟨-, hen⟩ := dealer_turn_has_enough { _deck := c1 :: c2 :: c3 :: c4 :: rest }
          choices unread _ g1 h52 (dealCards_cons c1 c2 c3 c4 rest) hl
        obtain ⟨r, hr⟩ := dealerLoop_some_of_enough _ _ hen
        unfold dealerTurn
        rw [hr]
        simp only [finalComparison]
        split <;> simp

/-- C14: deck exhaustion is unreachable in a round.  For every ordering of
the full 52-card deck and every sequence of decisions, the round never stops
as `DeckExhausted`: the four initial deals, every `Hit` and every dealer draw
find a card on the deck.  The same holds for `main`, whatever permutation
`std::shuffle` applies and whatever is typed. -/
theorem deck_never_exhausted (deck : Deck) (choices : List PlayerAction)
    (hfull : deck._deck.Perm Deck.new._deck) :
    (round deck choices).status ≠ .DeckExhausted
    ∧ (∀ stdShuffle : List Card → List Card, (∀ l, (stdShuffle l).Perm l) →
        ∀ input : List Char, (main stdShuffle input).status ≠ .DeckExhausted) := by
  have hnew : Deck.new._deck.length = 52 := by decide
  refine ⟨round_not_exhausted_of_length deck choices (hfull.length_eq.trans hnew), ?_⟩
  intro stdShuffle hperm input
  exact round_not_exhausted_of_length _ _
    ((Deck.Shuffle_perm stdShuffle hperm Deck.new).length_eq.trans hnew)

/-- On the fresh deck turned over, a round of three Hits and a Stand ends
without exhausting the deck. -/
theorem deck_never_exhausted_witness :
    (round turnedDeck
      [PlayerAction.Hit, PlayerAction.Hit, PlayerAction.Hit, PlayerAction.Stand]).status
      ≠ .DeckExhausted :=
  (deck_never_exhausted turnedDeck
    [PlayerAction.Hit, PlayerAction.Hit, PlayerAction.Hit, PlayerAction.Stand]
    (List.reverse_perm _)).1

/-! ## The dealer's final total -/

/-- A card added to a hand below 17 leaves it at 26 or less. -/
theorem Player.AddCard_total_le (p : Player) (c : Card) (h : p.Total < 17) :
    (p.AddCard c).Total ≤ 26 := by
  have hv := Card.value_bounds c
  have h0 := Player.hardSum_le_Total p
  have h1 := Player.Total_eq (p.AddCard c)
  have hsum : hardSum (p._hand ++ [c]) = hardSum p._hand + c.value := by
    rw [hardSum_append, hardSum_cons, hardSum_nil, add_zero]
  simp only [Player.AddCard, hsum] at h1
  simp only [Player.AddCard]
  rw [h1]
  split
  · rename_i hs
    have := hs.2
    omega
  · omega

/-- A dealer's loop entered with a total of at most 26 ends, when it ends,
with a total between 17 and 26. -/
theorem dealerLoop_total_bounds (cards : List Card) (dealer final : Player) (left : Deck)
    (hle : dealer.Total ≤ 26) (h : dealerLoop dealer cards = some (final, left)) :
    17 ≤ final.Total ∧ final.Total ≤ 26 := by
  induction cards generalizing dealer with
  | nil =>
    rw [dealerLoop] at h
    split at h
    · simp at h
    · rename_i hge
      simp only [Option.some.injEq, Prod.mk.injEq] at h
      obtain ⟨rfl, -⟩ := h
      exact ⟨not_lt.1 hge, hle⟩
  | cons top below ih =>
    rw [dealerLoop] at h
    split at h
    · rename_i hlt
      exact ih (dealer.AddCard top) (Player.AddCard_total_le dealer top hlt) h
    · rename_i hge
      simp only [Option.some.injEq, Prod.mk.injEq] at h
      obtain ⟨rfl, -⟩ := h
      exact ⟨not_lt.1 hge, hle⟩

/-- C17: the dealer's result is bounded.  For every ordering of the full deck
and every sequence of decisions with which the round reaches the dealer's
turn (the cards were dealt, the player had no blackjack and left the loop by
standing), the dealer's loop ends, the round ends with the hand the loop
produced, and the total of that hand lies between 17 and 26 inclusive. -/
theorem dealer_final_total_bounds (deck : Deck) (choices unread : List PlayerAction)
    (g g1 : Game)
    (hfull : deck._deck.Perm Deck.new._deck)
    (hdeal : dealCards deck = some g)
    (hnot21 : g.player.Total ≠ BLACKJACK)
    (hstood : playerLoop g choices = .stood g1 unread) :
    ∃ final left, dealerLoop g1.dealer g1.deck._deck = some (final, left)
      ∧ round deck choices
          = { status := finalComparison final g1.player,
              game := { deck := left, player := g1.player, dealer := final },
              unread := unread }
      ∧ (round deck choices).game.dealer = final
      ∧ 17 ≤ final.Total ∧ final.Total ≤ 26 := by
  have h52 : deck._deck.length = 52 := hfull.length_eq.trans (by decide)
  obtain ⟨-, hen⟩ := dealer_turn_has_enough deck choices unread g g1 h52 hdeal hstood
  obtain ⟨⟨final, left⟩, hr⟩ := dealerLoop_some_of_enough _ _ hen
  obtain ⟨c1, c2, c3, c4, rest, rfl, rfl⟩ := dealCards_some deck g hdeal
  have hdealer : g1.dealer = { _hand := [c3, c4] } :=
    (playerLoop_stood choices _ g1 unread hstood).2
  have hle : g1.dealer.Total ≤ 26 := by
    rw [hdealer]
    have := two_cards_le_21 c3 c4
    omega
  have hb := dealerLoop_total_bounds _ _ final left hle hr
  have hround : round { _deck := c1 :: c2 :: c3 :: c4 :: rest } choices
      = { status := finalComparison final g1.player,
          game := { deck := left, player := g1.player, dealer := final },
          unread := unread } := by
    simp [round, hdeal, hnot21, hstood, afterLoop, dealerTurn, hr]
  refine ⟨final, left, hr, hround, ?_, hb.1, hb.2⟩
  rw [hround]

/-- On the fresh deck turned over the player stands on Ace and Two; the
dealer holds Three and Four, draws the Five and the Six and ends on 18. -/
theorem dealer_final_total_bounds_witness :
    (round turnedDeck [PlayerAction.Stand]).game.dealer.Total = 18
    ∧ 17 ≤ (round turnedDeck [PlayerAction.Stand]).game.dealer.Total
    ∧ (round turnedDeck [PlayerAction.Stand]).game.dealer.Total ≤ 26 := by
  obtain ⟨final, left, -, -, hfinal, h17, h26⟩ :=
    dealer_final_total_bounds turnedDeck [PlayerAction.Stand] []
      (Game.mk (Deck.mk (turnedDeck._deck.drop 4))
        (Player.mk [Card.new .Hearts .Ace, Card.new .Hearts .Two])
        (Player.mk [Card.new .Hearts .Three, Card.new .Hearts .Four]))
      (Game.mk (Deck.mk (turnedDeck._deck.drop 4))
        (Player.mk [Card.new .Hearts .Ace, Card.new .Hearts .Two])
        (Player.mk [Card.new .Hearts .Three, Card.new .Hearts .Four]))
      (List.reverse_perm _) (by decide) (by decide) (by decide)
  refine ⟨by decide, ?_, ?_⟩
  · rw [hfinal]; exact h17
  · rw [hfinal]; exact h26

/-! ## Conservation of the cards -/

theorem Game.dealPlayer_perm (g g1 : Game) (h : g.dealPlayer = some g1) :
    g1.cards.Perm g.cards := by
  obtain ⟨⟨cards⟩, player, dealer⟩ := g
  cases cards with
  | nil => simp [Game.dealPlayer, Deck.Deal] at h
  | cons top below =>
    simp only [Game.dealPlayer, Deck.Deal, Option.some.injEq] at h
    subst h
    simp only [Game.cards, Player.AddCard]
    refine List.perm_iff_count.2 (fun c => ?_)
    simp only [List.count_append, List.count_cons, List.count_nil]
    omega

theorem Game.dealDealer_perm (g g1 : Game) (h : g.dealDealer = some g1) :
    g1.cards.Perm g.cards := by
  obtain ⟨⟨cards⟩, player, dealer⟩ := g
  cases cards with
  | nil => simp [Game.dealDealer, Deck.Deal] at h
  | cons top below =>
    simp only [Game.dealDealer, Deck.Deal, Option.some.injEq] at h
    subst h
    simp only [Game.cards, Player.AddCard]
    refine List.perm_iff_count.2 (fun c => ?_)
    simp only [List.count_append, List.count_cons, List.count_nil]
    omega

/-- Dealing moves cards between the deck and the hands: the cards of the
state stay the same. -/
theorem runMoves_perm (moves : List Move) (g g1 : Game) (h : runMoves g moves = some g1) :
    g1.cards.Perm g.cards := by
  induction moves generalizing g with
  | nil =>
    simp only [runMoves, Option.some.injEq] at h
    subst h
    exact List.Perm.refl _
  | cons m rest ih =>
    rw [runMoves] at h
    cases hm : m.run g with
    | none => rw [hm] at h; simp at h
    | some g2 =>
      rw [hm] at h
      simp only at h
      refine (ih g2 h).trans ?_
      cases m with
      | toPlayer => exact Game.dealPlayer_perm g g2 hm
      | toDealer => exact Game.dealDealer_perm g g2 hm

theorem runMoves_append (a b : List Move) (g g1 g2 : Game)
    (h1 : runMoves g a = some g1) (h2 : runMoves g1 b = some g2) :
    runMoves g (a ++ b) = some g2 := by
  induction a generalizing g with
  | nil =>
    simp only [runMoves, Option.some.injEq] at h1
    subst h1
    exact h2
  | cons m rest ih =>
    rw [runMoves] at h1
    rw [List.cons_append, runMoves]
    cases hm : m.run g with
    | none => rw [hm] at h1; simp at h1
    | some g3 =>
      rw [hm] at h1
      simp only at h1 ⊢
      exact ih g3 h1

/-- The initial deal is four dealing statements. -/
theorem dealCards_runMoves (deck : Deck) (g : Game) (h : dealCards deck = some g) :
    runMoves { deck := deck, player := Player.new, dealer := Player.new }
      [Move.toPlayer, Move.toPlayer, Move.toDealer, Move.toDealer] = some g := by
  obtain ⟨c1, c2, c3, c4, rest, rfl, rfl⟩ := dealCards_some deck g h
  rfl

/-- Every state in which the player's loop is left was reached by dealing
statements. -/
theorem playerLoop_runMoves (choices : List PlayerAction) (g : Game) :
    (∀ f, playerLoop g choices = .ended f → ∃ moves, runMoves g moves = some f.game)
    ∧ (∀ g1 unread, playerLoop g choices = .stood g1 unread →
        ∃ moves, runMoves g moves = some g1) := by
  induction choices generalizing g with
  | nil =>
    refine ⟨fun f h => ?_, fun g1 unread h => ?_⟩
    · rw [playerLoop_nil] at h
      simp only [LoopExit.ended.injEq] at h
      subst h
      exact ⟨[], rfl⟩
    · simp [playerLoop_nil] at h
  | cons a rest ih =>
    cases a with
    | None =>
      rw [playerLoop_none]
      exact ih g
    | Stand =>
      rw [playerLoop_stand]
      refine ⟨fun f h => ?_, fun g1 unread h => ?_⟩
      · split at h
        · simp only [LoopExit.ended.injEq] at h
          subst h
          exact ⟨[], rfl⟩
        · simp at h
      · split at h
        · simp at h
        · simp only [LoopExit.stood.injEq] at h
          obtain ⟨rfl, -⟩ := h
          exact ⟨[], rfl⟩
    | Hit =>
      cases hd : g.dealPlayer with
      | none =>
        rw [playerLoop_hit_empty g rest hd]
        refine ⟨fun f h => ?_, fun g1 unread h => ?_⟩
        · simp only [LoopExit.ended.injEq] at h
          subst h
          exact ⟨[], rfl⟩
        · simp at h
      | some g2 =>
        have hstep : runMoves g [Move.toPlayer] = some g2 := by
          simp [runMoves, Move.run, hd]
        rw [playerLoop_hit g g2 rest hd]
        refine ⟨fun f h => ?_, fun g1 unread h => ?_⟩
        · split at h
          · simp only [LoopExit.ended.injEq] at h
            subst h
            exact ⟨[Move.toPlayer], hstep⟩
          · obtain ⟨moves, hm⟩ := (ih g2).1 f h
            exact ⟨[Move.toPlayer] ++ moves, runMoves_append _ _ g g2 _ hstep hm⟩
        · split at h
          · simp at h
          · obtain ⟨moves, hm⟩ := (ih g2).2 g1 unread h
            exact ⟨[Move.toPlayer] ++ moves, runMoves_append _ _ g g2 _ hstep hm⟩

/-- The state in which the dealer's loop ends was reached by dealing
statements. -/
theorem dealerLoop_runMoves (cards : List Card) (player dealer final : Player) (left : Deck)
    (h : dealerLoop dealer cards = some (final, left)) :
    ∃ moves, runMoves { deck := { _deck := cards }, player := player, dealer := dealer } moves
      = some { deck := left, player := player, dealer := final } := by
  induction cards generalizing dealer with
  | nil =>
    rw [dealerLoop] at h
    split at h
    · simp at h
    · simp only [Option.some.injEq, Prod.mk.injEq] at h
      obtain ⟨rfl, rfl⟩ := h
      exact ⟨[], rfl⟩
  | cons top below ih =>
    rw [dealerLoop] at h
    split at h
    · obtain ⟨moves, hm⟩ := ih (dealer.AddCard top) h
      exact ⟨[Move.toDealer] ++ moves, runMoves_append _ _ _ _ _ rfl hm⟩
    · simp only [Option.some.injEq, Prod.mk.injEq] at h
      obtain ⟨rfl, rfl⟩ := h
      exact ⟨[], rfl⟩

/-- The state in which a round stops was reached from the shuffled deck and
two empty hands by dealing statements. -/
theorem round_runMoves (deck : Deck) (choices : List PlayerAction) :
    ∃ moves, runMoves { deck := deck, player := Player.new, dealer := Player.new } moves
      = some (round deck choices).game := by
  unfold round
  cases hd : dealCards deck with
  | none => exact ⟨[], rfl⟩
  | some g =>
    have h4 := dealCards_runMoves deck g hd
    simp only
    split
    · exact ⟨_, h4⟩
    · cases hl : playerLoop g choices with
      | ended f =>
        obtain ⟨moves, hm⟩ := (playerLoop_runMoves choices g).1 f hl
        exact ⟨_, runMoves_append _ _ _ _ _ h4 hm⟩
      | stood g1 unread =>
        obtain ⟨moves, hm⟩ := (playerLoop_runMoves choices g).2 g1 unread hl
        have h5 := runMoves_append _ _ _ _ _ h4 hm
        simp only [afterLoop, dealerTurn]
        cases hdl : dealerLoop g1.dealer g1.deck._deck with
        | none => exact ⟨_, h5⟩
        | some r =>
          obtain ⟨final, left⟩ := r
          obtain ⟨moves2, hm2⟩ := dealerLoop_runMoves _ g1.player _ final left hdl
          exact ⟨_, runMoves_append _ _ _ _ _ h5 hm2⟩

theorem Deck.new_pairs_nodup : (Deck.new._deck.map (fun c => (c.suit, c.rank))).Nodup := by
  decide

theorem Deck.new_mem (s : Suit) (r : Rank) : Card.new s r ∈ Deck.new._deck := by
  cases s <;> cases r <;> decide

theorem Deck.new_length : Deck.new._deck.length = 52 := by decide

/-- C15: conservation of the cards in a round.  In every state reached from a
freshly constructed and shuffled deck and two empty hands by dealing
statements (the initial deal, the Hits, the dealer's draws), the cards of the
deck, of the player's hand and of the dealer's hand are, taken together, a
permutation of the fresh deck: 52 cards, pairwise distinct, no (suit, rank)
pair twice, every pair present.  So the deck holds between 0 and 52 distinct
cards, none of which is in a hand, and the hands share no card.  Every state
in which `main` stops is such a state. -/
theorem cards_conserved (stdShuffle : List Card → List Card)
    (hperm : ∀ l, (stdShuffle l).Perm l) (moves : List Move) (g : Game)
    (h : runMoves { deck := Deck.new.Shuffle stdShuffle, player := Player.new,
                    dealer := Player.new } moves = some g) :
    g.cards.Perm Deck.new._deck
    ∧ g.cards.length = 52
    ∧ g.cards.Nodup
    ∧ (g.cards.map (fun c => (c.suit, c.rank))).Nodup
    ∧ (∀ (s : Suit) (r : Rank), Card.new s r ∈ g.cards)
    ∧ 0 ≤ g.deck.Size ∧ g.deck.Size ≤ 52
    ∧ g.deck._deck.Nodup
    ∧ (∀ c ∈ g.deck._deck, c ∉ g.player._hand ∧ c ∉ g.dealer._hand)
    ∧ (∀ c ∈ g.player._hand, c ∉ g.dealer._hand)
    ∧ (∀ input : List Char, ∃ ms,
        runMoves { deck := Deck.new.Shuffle stdShuffle, player := Player.new,
                   dealer := Player.new } ms = some (main stdShuffle input).game) := by
  have hstart : (Game.mk (Deck.new.Shuffle stdShuffle) Player.new Player.new).cards.Perm
      Deck.new._deck := by
    simp only [Game.cards, Player.new, List.append_nil]
    exact Deck.Shuffle_perm stdShuffle hperm Deck.new
  have hp : g.cards.Perm Deck.new._deck := (runMoves_perm moves _ g h).trans hstart
  have hpairs : (g.cards.map (fun c => (c.suit, c.rank))).Nodup :=
    (hp.map _).nodup_iff.2 Deck.new_pairs_nodup
  have hnd : g.cards.Nodup := List.Nodup.of_map _ hpairs
  have hlen : g.cards.length = 52 := hp.length_eq.trans Deck.new_length
  have hnd2 := hnd
  simp only [Game.cards, List.nodup_append, List.Disjoint, List.mem_append] at hnd2
  obtain ⟨⟨hdeck, hplayer, hdp⟩, hdealer, hdd⟩ := hnd2
  have hlen2 := hlen
  simp only [Game.cards, List.length_append] at hlen2
  refine ⟨hp, hlen, hnd, hpairs, fun s r => hp.mem_iff.2 (Deck.new_mem s r), ?_, ?_, hdeck,
    fun c hc => ⟨fun hcp => hdp hc hcp, fun hcd => hdd (Or.inl hc) hcd⟩,
    fun c hc hcd => hdd (Or.inr hc) hcd, fun input => round_runMoves _ _⟩
  · simp only [Deck.Size]
    omega
  · simp only [Deck.Size]
    omega

/-- With a `std::shuffle` that reverses the vector, after the initial deal and
one Hit the 47 cards of the deck, the player's three and the dealer's two are
the 52 cards of the fresh deck. -/
theorem cards_conserved_witness :
    ∃ g, runMoves { deck := Deck.new.Shuffle List.reverse, player := Player.new,
                    dealer := Player.new }
        [Move.toPlayer, Move.toPlayer, Move.toDealer, Move.toDealer, Move.toPlayer] = some g
      ∧ g.player._hand
          = [Card.new .Clubs .King, Card.new .Clubs .Queen, Card.new .Clubs .Nine]
      ∧ g.dealer._hand = [Card.new .Clubs .Jack, Card.new .Clubs .Ten]
      ∧ g.deck.Size = 47
      ∧ g.cards.Perm Deck.new._deck
      ∧ g.cards.Nodup :=
  ⟨Game.mk (Deck.mk (Deck.new._deck.drop 5))
      (Player.mk [Card.new .Clubs .King, Card.new .Clubs .Queen, Card.new .Clubs .Nine])
      (Player.mk [Card.new .Clubs .Jack, Card.new .Clubs .Ten]),
    by decide, rfl, rfl, by decide,
    (cards_conserved List.reverse (fun l => List.reverse_perm l)
      [Move.toPlayer, Move.toPlayer, Move.toDealer, Move.toDealer, Move.toPlayer]
      _ (by decide)).1,
    (cards_conserved List.reverse (fun l => List.reverse_perm l)
      [Move.toPlayer, Move.toPlayer, Move.toDealer, Move.toDealer, Move.toPlayer]
      _ (by decide)).2.2.1⟩

end Blackjack
